import Mathlib

/-!
Shallow embedding of queryHandler.js, a browser-side utility that reads the
current page's URL query parameters and propagates them onto other URLs.
The library is a thin wrapper over the host platform's URL facilities, so this
file models those facilities following the WHATWG URL standard: the
application/x-www-form-urlencoded parser and serializer (used by
URLSearchParams), URLSearchParams.set, and the basic URL parser restricted to
absolute scheme://host URLs in canonical textual form.  On top of them it
defines the four functions of src/queryHandler.js and proves the specified
properties.
-/

namespace QueryHandler

/-! ## Association-list primitives for query parameter lists -/

/-- Keys of a query parameter list, in order. -/
def keysOf (l : List (String × String)) : List String := l.map Prod.fst

/-- First-occurrence lookup in a query parameter list. -/
def lookupKey : List (String × String) → String → Option String
  | [], _ => none
  | (k', v) :: t, k => if k' = k then some v else lookupKey t k

/-- Whether the list has an entry with the given key. -/
def hasKey (l : List (String × String)) (k : String) : Bool :=
  l.any (fun p => p.1 == k)

/-- Number of entries carrying the given key. -/
def countKey (l : List (String × String)) (k : String) : Nat :=
  l.countP (fun p => p.1 == k)

theorem hasKey_iff_mem {l : List (String × String)} {k : String} :
    hasKey l k = true ↔ k ∈ keysOf l := by
  simp [hasKey, keysOf, List.any_eq_true, List.mem_map]

theorem hasKey_append {a b : List (String × String)} {k : String} :
    hasKey (a ++ b) k = (hasKey a k || hasKey b k) := by
  simp [hasKey]

theorem hasKey_cons {p : String × String} {t : List (String × String)} {k : String} :
    hasKey (p :: t) k = (p.1 == k || hasKey t k) := by
  simp [hasKey]

theorem lookupKey_eq_none_of_not_hasKey {l : List (String × String)} {k : String}
    (h : hasKey l k = false) : lookupKey l k = none := by
  induction l with
  | nil => rfl
  | cons p t ih =>
    rw [hasKey_cons, Bool.or_eq_false_iff] at h
    obtain ⟨h1, h2⟩ := h
    cases p with
    | mk k' v =>
      simp only [lookupKey]
      rw [if_neg (by simpa using h1)]
      exact ih h2

theorem lookupKey_isSome_of_hasKey {l : List (String × String)} {k : String}
    (h : hasKey l k = true) : ∃ v, lookupKey l k = some v := by
  induction l with
  | nil => simp [hasKey] at h
  | cons p t ih =>
    rw [hasKey_cons, Bool.or_eq_true] at h
    cases p with
    | mk k' v =>
      by_cases hk : k' = k
      · exact ⟨v, by simp [lookupKey, hk]⟩
      · simp only [lookupKey, if_neg hk]
        rcases h with h | h
        · exact absurd (by simpa using h) hk
        · exact ih h

/-! ## Byte-level codec: the WHATWG application/x-www-form-urlencoded format

URLSearchParams parses and serializes name/value components at the byte level:
strings are UTF-8 encoded, `+` stands for a space, and every byte outside the
urlencoded safe set is written `%XX`.  We model bytes as natural numbers
below 256. -/

/-- UTF-8 encoding of a single code point (1 to 4 bytes). -/
def utf8EncodeCp (n : Nat) : List Nat :=
  if n < 0x80 then [n]
  else if n < 0x800 then [0xC0 + n / 64, 0x80 + n % 64]
  else if n < 0x10000 then [0xE0 + n / 4096, 0x80 + (n / 64) % 64, 0x80 + n % 64]
  else [0xF0 + n / 262144, 0x80 + (n / 4096) % 64, 0x80 + (n / 64) % 64, 0x80 + n % 64]

/-- UTF-8 encoding of a character sequence as a byte sequence. -/
def utf8Encode (s : List Char) : List Nat :=
  (s.map (fun c => utf8EncodeCp c.toNat)).flatten

/-- A UTF-8 continuation byte. -/
def isCont (b : Nat) : Bool := decide (0x80 ≤ b ∧ b ≤ 0xBF)

/-- Allowed second byte of a three-byte sequence, per the WHATWG UTF-8 decoder
(rules out overlong encodings and surrogate code points). -/
def snd3ok (b b2 : Nat) : Bool :=
  if b = 0xE0 then decide (0xA0 ≤ b2 ∧ b2 ≤ 0xBF)
  else if b = 0xED then decide (0x80 ≤ b2 ∧ b2 ≤ 0x9F)
  else isCont b2

/-- Allowed second byte of a four-byte sequence, per the WHATWG UTF-8 decoder
(rules out overlong encodings and code points above U+10FFFF). -/
def snd4ok (b b2 : Nat) : Bool :=
  if b = 0xF0 then decide (0x90 ≤ b2 ∧ b2 ≤ 0xBF)
  else if b = 0xF4 then decide (0x80 ≤ b2 ∧ b2 ≤ 0x8F)
  else isCont b2

/-- The WHATWG UTF-8 decoder: invalid sequences produce U+FFFD and decoding
restarts at the offending byte. -/
def utf8DecodeReplace : List Nat → List Char
  | [] => []
  | b :: t =>
    if b < 0x80 then Char.ofNat b :: utf8DecodeReplace t
    else if 0xC2 ≤ b ∧ b ≤ 0xDF then
      match t with
      | [] => ['�']
      | b2 :: t2 =>
        if isCont b2 then
          Char.ofNat ((b - 0xC0) * 64 + (b2 - 0x80)) :: utf8DecodeReplace t2
        else '�' :: utf8DecodeReplace (b2 :: t2)
    else if 0xE0 ≤ b ∧ b ≤ 0xEF then
      match t with
      | [] => ['�']
      | b2 :: t2 =>
        if snd3ok b b2 then
          match t2 with
          | [] => ['�']
          | b3 :: t3 =>
            if isCont b3 then
              Char.ofNat ((b - 0xE0) * 4096 + (b2 - 0x80) * 64 + (b3 - 0x80)) ::
                utf8DecodeReplace t3
            else '�' :: utf8DecodeReplace (b3 :: t3)
        else '�' :: utf8DecodeReplace (b2 :: t2)
    else if 0xF0 ≤ b ∧ b ≤ 0xF4 then
      match t with
      | [] => ['�']
      | b2 :: t2 =>
        if snd4ok b b2 then
          match t2 with
          | [] => ['�']
          | b3 :: t3 =>
            if isCont b3 then
              match t3 with
              | [] => ['�']
              | b4 :: t4 =>
                if isCont b4 then
                  Char.ofNat ((b - 0xF0) * 262144 + (b2 - 0x80) * 4096 +
                      (b3 - 0x80) * 64 + (b4 - 0x80)) :: utf8DecodeReplace t4
                else '�' :: utf8DecodeReplace (b4 :: t4)
            else '�' :: utf8DecodeReplace (b3 :: t3)
        else '�' :: utf8DecodeReplace (b2 :: t2)
    else '�' :: utf8DecodeReplace t

/-- A byte denoting an ASCII hex digit. -/
def isHexByte (b : Nat) : Bool :=
  decide ((0x30 ≤ b ∧ b ≤ 0x39) ∨ (0x41 ≤ b ∧ b ≤ 0x46) ∨ (0x61 ≤ b ∧ b ≤ 0x66))

/-- Numeric value of an ASCII hex digit byte. -/
def hexVal (b : Nat) : Nat :=
  if b ≤ 0x39 then b - 0x30 else if b ≤ 0x46 then b - 0x41 + 10 else b - 0x61 + 10

/-- Uppercase hex digit character for a value below 16. -/
def hexUpper (n : Nat) : Char :=
  if n < 10 then Char.ofNat (0x30 + n) else Char.ofNat (0x41 + (n - 10))

/-- Percent-decoding on bytes: `%XY` with two hex digits becomes one byte,
anything else passes through. -/
def percentDecodeBytes : List Nat → List Nat
  | [] => []
  | b :: t =>
    if b = 0x25 then
      match t with
      | b1 :: b2 :: t2 =>
        if isHexByte b1 ∧ isHexByte b2 then
          (hexVal b1 * 16 + hexVal b2) :: percentDecodeBytes t2
        else b :: percentDecodeBytes (b1 :: b2 :: t2)
      | [b1] => b :: percentDecodeBytes [b1]
      | [] => [b]
    else b :: percentDecodeBytes t

/-- In the urlencoded format a `+` byte denotes a space. -/
def plusToSpaceByte (b : Nat) : Nat := if b = 0x2B then 0x20 else b

/-- Bytes the urlencoded serializer leaves unescaped:
`*`, `-`, `.`, digits, letters and `_`. -/
def isUrlencodedSafe (b : Nat) : Bool :=
  decide (b = 0x2A ∨ b = 0x2D ∨ b = 0x2E ∨ (0x30 ≤ b ∧ b ≤ 0x39) ∨
    (0x41 ≤ b ∧ b ≤ 0x5A) ∨ b = 0x5F ∨ (0x61 ≤ b ∧ b ≤ 0x7A))

/-- urlencoded serialization of one byte: space becomes `+`, safe bytes stay,
everything else becomes `%XX`. -/
def percentEncodeByte (b : Nat) : List Char :=
  if b = 0x20 then ['+']
  else if isUrlencodedSafe b then [Char.ofNat b]
  else ['%', hexUpper (b / 16), hexUpper (b % 16)]

/-- urlencoded decoding of one name or value component: UTF-8 encode the
characters to bytes, turn `+` into space, percent-decode, UTF-8 decode. -/
def decodeComponent (s : List Char) : String :=
  String.mk (utf8DecodeReplace (percentDecodeBytes ((utf8Encode s).map plusToSpaceByte)))

/-- urlencoded serialization of one name or value component. -/
def encodeComponent (s : String) : List Char :=
  ((utf8Encode s.data).map percentEncodeByte).flatten

/-! ## Codec roundtrip -/

theorem char_toNat_valid (c : Char) :
    c.toNat < 0xD800 ∨ (0xDFFF < c.toNat ∧ c.toNat < 0x110000) := by
  rcases c.valid with h | ⟨h1, h2⟩
  · exact Or.inl (UInt32.toNat_lt_of_lt (by norm_num) h)
  · exact Or.inr ⟨UInt32.lt_toNat_of_lt (by norm_num) h1,
      UInt32.toNat_lt_of_lt (by norm_num) h2⟩

theorem utf8Encode_nil : utf8Encode [] = [] := rfl

theorem utf8Encode_cons (c : Char) (s : List Char) :
    utf8Encode (c :: s) = utf8EncodeCp c.toNat ++ utf8Encode s := by
  simp [utf8Encode]

theorem percentDecodeBytes_cons {b : Nat} (t : List Nat) (hne : b ≠ 0x25) :
    percentDecodeBytes (b :: t) = b :: percentDecodeBytes t := by
  rw [percentDecodeBytes.eq_def]
  simp only [if_neg hne]

theorem percentDecodeBytes_triple {b1 b2 : Nat} (t : List Nat)
    (h1 : isHexByte b1 = true) (h2 : isHexByte b2 = true) :
    percentDecodeBytes (0x25 :: b1 :: b2 :: t) =
      (hexVal b1 * 16 + hexVal b2) :: percentDecodeBytes t := by
  rw [percentDecodeBytes.eq_def]
  simp only [if_pos rfl, if_pos (And.intro h1 h2)]
  rw [if_pos trivial]

theorem utf8DecodeReplace_one {b : Nat} (t : List Nat) (h : b < 0x80) :
    utf8DecodeReplace (b :: t) = Char.ofNat b :: utf8DecodeReplace t := by
  rw [utf8DecodeReplace.eq_def]
  simp only [if_pos h]

theorem utf8DecodeReplace_two {b1 b2 : Nat} (t : List Nat)
    (h1 : 0xC2 ≤ b1 ∧ b1 ≤ 0xDF) (h2 : isCont b2 = true) :
    utf8DecodeReplace (b1 :: b2 :: t) =
      Char.ofNat ((b1 - 0xC0) * 64 + (b2 - 0x80)) :: utf8DecodeReplace t := by
  rw [utf8DecodeReplace.eq_def]
  simp only [if_neg (show ¬ b1 < 0x80 by omega), if_pos h1, if_pos h2]

theorem utf8DecodeReplace_three {b1 b2 b3 : Nat} (t : List Nat)
    (h1 : 0xE0 ≤ b1 ∧ b1 ≤ 0xEF) (h2 : snd3ok b1 b2 = true) (h3 : isCont b3 = true) :
    utf8DecodeReplace (b1 :: b2 :: b3 :: t) =
      Char.ofNat ((b1 - 0xE0) * 4096 + (b2 - 0x80) * 64 + (b3 - 0x80)) ::
        utf8DecodeReplace t := by
  rw [utf8DecodeReplace.eq_def]
  simp only [if_neg (show ¬ b1 < 0x80 by omega),
    if_neg (show ¬ (0xC2 ≤ b1 ∧ b1 ≤ 0xDF) by omega), if_pos h1, if_pos h2, if_pos h3]

theorem utf8DecodeReplace_four {b1 b2 b3 b4 : Nat} (t : List Nat)
    (h1 : 0xF0 ≤ b1 ∧ b1 ≤ 0xF4) (h2 : snd4ok b1 b2 = true) (h3 : isCont b3 = true)
    (h4 : isCont b4 = true) :
    utf8DecodeReplace (b1 :: b2 :: b3 :: b4 :: t) =
      Char.ofNat ((b1 - 0xF0) * 262144 + (b2 - 0x80) * 4096 + (b3 - 0x80) * 64 +
        (b4 - 0x80)) :: utf8DecodeReplace t := by
  rw [utf8DecodeReplace.eq_def]
  simp only [if_neg (show ¬ b1 < 0x80 by omega),
    if_neg (show ¬ (0xC2 ≤ b1 ∧ b1 ≤ 0xDF) by omega),
    if_neg (show ¬ (0xE0 ≤ b1 ∧ b1 ≤ 0xEF) by omega),
    if_pos h1, if_pos h2, if_pos h3, if_pos h4]

theorem utf8DecodeReplace_encodeCp_append (c : Char) (bs : List Nat) :
    utf8DecodeReplace (utf8EncodeCp c.toNat ++ bs) = c :: utf8DecodeReplace bs := by
  have hv := char_toNat_valid c
  have hofNat := Char.ofNat_toNat c
  set n := c.toNat with hn
  by_cases h1 : n < 0x80
  · simp only [utf8EncodeCp, if_pos h1, List.cons_append, List.nil_append]
    rw [utf8DecodeReplace_one _ h1, hofNat]
  · by_cases h2 : n < 0x800
    · simp only [utf8EncodeCp, if_neg h1, if_pos h2, List.cons_append, List.nil_append]
      rw [utf8DecodeReplace_two _ (by omega)
        (by simp only [isCont, decide_eq_true_eq]; omega)]
      rw [show (0xC0 + n / 64 - 0xC0) * 64 + (0x80 + n % 64 - 0x80) = n by omega, hofNat]
    · by_cases h3 : n < 0x10000
      · simp only [utf8EncodeCp, if_neg h1, if_neg h2, if_pos h3, List.cons_append,
          List.nil_append]
        have hsnd : snd3ok (0xE0 + n / 4096) (0x80 + n / 64 % 64) = true := by
          simp only [snd3ok]
          by_cases hE0 : 0xE0 + n / 4096 = 0xE0
          · rw [if_pos hE0]; simp only [decide_eq_true_eq]; omega
          · rw [if_neg hE0]
            by_cases hED : 0xE0 + n / 4096 = 0xED
            · rw [if_pos hED]
              simp only [decide_eq_true_eq]
              rcases hv with h | ⟨h, _⟩ <;> omega
            · rw [if_neg hED]
              simp only [isCont, decide_eq_true_eq]; omega
        rw [utf8DecodeReplace_three _ (by omega) hsnd
          (by simp only [isCont, decide_eq_true_eq]; omega)]
        rw [show (0xE0 + n / 4096 - 0xE0) * 4096 + (0x80 + n / 64 % 64 - 0x80) * 64 +
          (0x80 + n % 64 - 0x80) = n by omega, hofNat]
      · have h4 : n < 0x110000 := by rcases hv with h | ⟨_, h⟩ <;> omega
        simp only [utf8EncodeCp, if_neg h1, if_neg h2, if_neg h3, List.cons_append,
          List.nil_append]
        have hsnd : snd4ok (0xF0 + n / 262144) (0x80 + n / 4096 % 64) = true := by
          simp only [snd4ok]
          by_cases hF0 : 0xF0 + n / 262144 = 0xF0
          · rw [if_pos hF0]; simp only [decide_eq_true_eq]; omega
          · rw [if_neg hF0]
            by_cases hF4 : 0xF0 + n / 262144 = 0xF4
            · rw [if_pos hF4]; simp only [decide_eq_true_eq]; omega
            · rw [if_neg hF4]
              simp only [isCont, decide_eq_true_eq]; omega
        rw [utf8DecodeReplace_four _ (by omega) hsnd
          (by simp only [isCont, decide_eq_true_eq]; omega)
          (by simp only [isCont, decide_eq_true_eq]; omega)]
        rw [show (0xF0 + n / 262144 - 0xF0) * 262144 + (0x80 + n / 4096 % 64 - 0x80) * 4096 +
          (0x80 + n / 64 % 64 - 0x80) * 64 + (0x80 + n % 64 - 0x80) = n by omega, hofNat]

theorem utf8DecodeReplace_utf8Encode (s : List Char) :
    utf8DecodeReplace (utf8Encode s) = s := by
  induction s with
  | nil => rfl
  | cons c t ih =>
    rw [utf8Encode_cons, utf8DecodeReplace_encodeCp_append, ih]

theorem utf8Encode_ascii (s : List Char) (h : ∀ c ∈ s, c.toNat < 0x80) :
    utf8Encode s = s.map Char.toNat := by
  induction s with
  | nil => rfl
  | cons c t ih =>
    rw [utf8Encode_cons, ih (fun c hc => h c (List.mem_cons_of_mem _ hc))]
    have hc := h c (List.mem_cons_self _ _)
    simp [utf8EncodeCp, if_pos hc]

theorem utf8Encode_bytes_lt (s : List Char) : ∀ b ∈ utf8Encode s, b < 256 := by
  induction s with
  | nil => simp [utf8Encode]
  | cons c t ih =>
    intro b hb
    rw [utf8Encode_cons, List.mem_append] at hb
    rcases hb with hb | hb
    · have hv := char_toNat_valid c
      have h4 : c.toNat < 0x110000 := by rcases hv with h | ⟨_, h⟩ <;> omega
      simp only [utf8EncodeCp] at hb
      split at hb <;> [skip; split at hb] <;> [skip; skip; split at hb] <;>
        simp_all <;> omega
    · exact ih b hb

/-- The byte sequence that one serialized byte contributes to the parser's
input, after the parser's UTF-8 encode and plus-to-space steps. -/
def pdUnit (b : Nat) : List Nat :=
  (percentEncodeByte b).map (fun c => plusToSpaceByte c.toNat)

set_option maxRecDepth 4096 in
theorem pdUnit_spec : ∀ b, b < 256 →
    (pdUnit b = [b] ∧ b ≠ 0x25) ∨
      (pdUnit b = [0x25, (hexUpper (b / 16)).toNat, (hexUpper (b % 16)).toNat] ∧
        isHexByte ((hexUpper (b / 16)).toNat) = true ∧
        isHexByte ((hexUpper (b % 16)).toNat) = true ∧
        hexVal ((hexUpper (b / 16)).toNat) * 16 + hexVal ((hexUpper (b % 16)).toNat) = b) := by
  decide

set_option maxRecDepth 4096 in
theorem percentEncodeByte_chars : ∀ b, b < 256 →
    ((percentEncodeByte b).all
      (fun c => decide (c.toNat < 0x80 ∧ c ≠ '&' ∧ c ≠ '=' ∧ c ≠ '#'))) = true := by
  decide

theorem percentDecode_pdUnits (bs : List Nat) (h : ∀ b ∈ bs, b < 256) :
    percentDecodeBytes ((bs.map pdUnit).flatten) = bs := by
  induction bs with
  | nil => rfl
  | cons b t ih =>
    have hb := h b (List.mem_cons_self _ _)
    have ht := ih (fun x hx => h x (List.mem_cons_of_mem _ hx))
    rcases pdUnit_spec b hb with ⟨hu, hne⟩ | ⟨hu, hx1, hx2, hval⟩
    · simp only [List.map_cons, List.flatten_cons, hu, List.cons_append, List.nil_append]
      rw [percentDecodeBytes_cons _ hne, ht]
    · simp only [List.map_cons, List.flatten_cons, hu, List.cons_append, List.nil_append]
      rw [percentDecodeBytes_triple _ hx1 hx2, hval, ht]

theorem decodeComponent_encodeComponent (s : String) :
    decodeComponent (encodeComponent s) = s := by
  have hascii : ∀ c ∈ encodeComponent s, c.toNat < 0x80 := by
    intro c hc
    simp only [encodeComponent, List.mem_flatten, List.mem_map] at hc
    obtain ⟨l, ⟨b, hb, hl⟩, hcl⟩ := hc
    have hb256 := utf8Encode_bytes_lt s.data b hb
    have := percentEncodeByte_chars b hb256
    rw [List.all_eq_true] at this
    have := this c (hl ▸ hcl)
    simp only [decide_eq_true_eq] at this
    exact this.1
  unfold decodeComponent
  rw [utf8Encode_ascii _ hascii]
  have hmaps : ((encodeComponent s).map Char.toNat).map plusToSpaceByte =
      ((utf8Encode s.data).map pdUnit).flatten := by
    simp only [encodeComponent, List.map_flatten, List.map_map]
    apply congrArg List.flatten
    apply List.map_congr_left
    intro b _
    simp [pdUnit, Function.comp, List.map_map]
  rw [hmaps, percentDecode_pdUnits _ (utf8Encode_bytes_lt s.data),
    utf8DecodeReplace_utf8Encode]

theorem encodeComponent_chars (s : String) :
    ∀ c ∈ encodeComponent s, c.toNat < 0x80 ∧ c ≠ '&' ∧ c ≠ '=' ∧ c ≠ '#' := by
  intro c hc
  simp only [encodeComponent, List.mem_flatten, List.mem_map] at hc
  obtain ⟨l, ⟨b, hb, hl⟩, hcl⟩ := hc
  have hb256 := utf8Encode_bytes_lt s.data b hb
  have hall := percentEncodeByte_chars b hb256
  rw [List.all_eq_true] at hall
  have := hall c (hl ▸ hcl)
  simpa using this

/-! ## Query-string parsing and serialization (URLSearchParams)

The application/x-www-form-urlencoded parser: split the query on `&`, drop
empty segments, cut each segment at its first `=` (a segment without `=` is a
name with empty value), and decode name and value.  The serializer writes
`name=value` pairs joined by `&`, with both components percent-encoded. -/

/-- Split a character sequence at every `&`. -/
def splitOnAmp : List Char → List (List Char)
  | [] => [[]]
  | c :: t =>
    if c = '&' then [] :: splitOnAmp t
    else
      match splitOnAmp t with
      | [] => [[c]]
      | s :: ss => (c :: s) :: ss

/-- Cut one segment at its first `=` and decode name and value. -/
def parsePairChars (seg : List Char) : String × String :=
  match seg.dropWhile (fun c => !(c == '=')) with
  | '=' :: v => (decodeComponent (seg.takeWhile (fun c => !(c == '='))), decodeComponent v)
  | _ => (decodeComponent seg, "")

/-- Parse a raw query string (without the leading `?`) into its parameter
list, in source order. -/
def parseQueryChars (q : List Char) : List (String × String) :=
  ((splitOnAmp q).filter (fun s => !s.isEmpty)).map parsePairChars

/-- Serialize one `name=value` pair. -/
def serializePair (p : String × String) : List Char :=
  encodeComponent p.1 ++ '=' :: encodeComponent p.2

/-- Join serialized pairs with `&`. -/
def joinAmp : List (List Char) → List Char
  | [] => []
  | [s] => s
  | s :: t => s ++ '&' :: joinAmp t

/-- The urlencoded serializer for a parameter list. -/
def serializeQueryChars (l : List (String × String)) : List Char :=
  joinAmp (l.map serializePair)

theorem splitOnAmp_no_amp {s : List Char} (h : '&' ∉ s) : splitOnAmp s = [s] := by
  induction s with
  | nil => rfl
  | cons c t ih =>
    have hc : ¬ c = '&' := fun he => h (he ▸ List.mem_cons_self _ _)
    simp only [splitOnAmp, if_neg hc, ih (fun ht => h (List.mem_cons_of_mem _ ht))]

theorem splitOnAmp_append_amp {s : List Char} (r : List Char) (h : '&' ∉ s) :
    splitOnAmp (s ++ '&' :: r) = s :: splitOnAmp r := by
  induction s with
  | nil => simp [splitOnAmp]
  | cons c t ih =>
    have hc : ¬ c = '&' := fun he => h (he ▸ List.mem_cons_self _ _)
    rw [List.cons_append]
    simp only [splitOnAmp, if_neg hc, ih (fun ht => h (List.mem_cons_of_mem _ ht))]

theorem parsePairChars_serializePair (p : String × String) :
    parsePairChars (serializePair p) = p := by
  have hk := encodeComponent_chars p.1
  have hdrop : (serializePair p).dropWhile (fun c => !(c == '=')) =
      '=' :: encodeComponent p.2 := by
    rw [serializePair, List.dropWhile_append]
    have h1 : (encodeComponent p.1).dropWhile (fun c => !(c == '=')) = [] := by
      rw [List.dropWhile_eq_nil_iff]
      intro c hc
      simpa using (hk c hc).2.2.1
    simp [h1, List.dropWhile]
  have htake : (serializePair p).takeWhile (fun c => !(c == '=')) =
      encodeComponent p.1 := by
    rw [serializePair, List.takeWhile_append]
    have h1 : (encodeComponent p.1).takeWhile (fun c => !(c == '=')) =
        encodeComponent p.1 := by
      rw [List.takeWhile_eq_self_iff]
      intro c hc
      simpa using (hk c hc).2.2.1
    simp [h1, List.takeWhile]
  rw [parsePairChars, hdrop, htake]
  simp [decodeComponent_encodeComponent]

theorem serializePair_ne_nil (p : String × String) : serializePair p ≠ [] := by
  rw [serializePair]
  intro h
  exact absurd (List.append_eq_nil.mp h).2 (by simp)

theorem serializePair_no_amp (p : String × String) : '&' ∉ serializePair p := by
  rw [serializePair]
  intro h
  rcases List.mem_append.mp h with h | h
  · exact (encodeComponent_chars p.1 _ h).2.1 rfl
  · rcases List.mem_cons.mp h with h | h
    · exact absurd h (by decide)
    · exact (encodeComponent_chars p.2 _ h).2.1 rfl

theorem parseQueryChars_serializeQueryChars (l : List (String × String)) :
    parseQueryChars (serializeQueryChars l) = l := by
  induction l with
  | nil => rfl
  | cons p t ih =>
    cases t with
    | nil =>
      rw [serializeQueryChars, List.map_cons, List.map_nil]
      show parseQueryChars (serializePair p) = [p]
      rw [parseQueryChars, splitOnAmp_no_amp (serializePair_no_amp p)]
      rw [List.filter_cons, if_pos (by simpa using serializePair_ne_nil p)]
      simp [parsePairChars_serializePair]
    | cons q t2 =>
      rw [serializeQueryChars, List.map_cons]
      show parseQueryChars (joinAmp (serializePair p :: serializePair q :: t2.map serializePair)) = _
      rw [show joinAmp (serializePair p :: serializePair q :: t2.map serializePair) =
        serializePair p ++ '&' :: joinAmp (serializePair q :: t2.map serializePair) from rfl]
      rw [parseQueryChars, splitOnAmp_append_amp _ (serializePair_no_amp p)]
      rw [List.filter_cons, if_pos (by simpa using serializePair_ne_nil p)]
      rw [List.map_cons, parsePairChars_serializePair]
      have := ih
      rw [serializeQueryChars] at this
      rw [parseQueryChars] at this
      rw [List.map_cons] at this
      rw [this]


/-! ## URLSearchParams.set and the merge of a parameter list into a base list -/

/-- Helper for set: update the value of the first entry carrying the key and
drop every later entry carrying it. -/
def replaceFirstRemoveRest : List (String × String) → String → String → List (String × String)
  | [], _, _ => []
  | (k', v') :: t, k, v =>
    if k' = k then (k, v) :: t.filter (fun p => !(p.1 == k))
    else (k', v') :: replaceFirstRemoveRest t k v

/-- URLSearchParams.set: if an entry with the name exists, set the first
matching entry's value and remove the other matching entries; otherwise
append the pair at the end. -/
def setParam (l : List (String × String)) (k v : String) : List (String × String) :=
  if hasKey l k then replaceFirstRemoveRest l k v else l ++ [(k, v)]

/-- The loop of appendQueryParams: set every entry of params in order. -/
def setAll (l : List (String × String)) (ps : List (String × String)) :
    List (String × String) :=
  ps.foldl (fun acc p => setParam acc p.1 p.2) l

/-- Modelled from the spec: walk the base list in order; an entry whose key is
overwritten by params keeps its place with the new value (later duplicate
occurrences of an overwritten key disappear, per set semantics); an entry
whose key is not in params is kept as is. -/
def dedupeUpdate (ps : List (String × String)) : List (String × String) → List (String × String)
  | [] => []
  | (k, v) :: t =>
    match lookupKey ps k with
    | some w => (k, w) :: dedupeUpdate ps (t.filter (fun p => !(p.1 == k)))
    | none => (k, v) :: dedupeUpdate ps t
termination_by l => l.length
decreasing_by
  · simp only [List.length_cons]
    exact Nat.lt_succ_of_le (List.length_filter_le _ _)
  · simp only [List.length_cons]
    exact Nat.lt_succ_self _

/-- Modelled from the spec: the merge result is the pre-existing parameters
first, in their original order and updated in place where overwritten,
followed by the newly added parameters in params order. -/
def mergeSpecList (base ps : List (String × String)) : List (String × String) :=
  dedupeUpdate ps base ++ ps.filter (fun p => !(hasKey base p.1))

/-! ### Filter and key helper lemmas -/

theorem hasKey_filter_false {l : List (String × String)} {x : String}
    (p : String × String → Bool) (h : hasKey l x = false) :
    hasKey (l.filter p) x = false := by
  simp only [hasKey, List.any_eq_false] at h ⊢
  exact fun q hq => h q (List.mem_of_mem_filter hq)

theorem hasKey_filter_ne {l : List (String × String)} {x k : String} (hne : x ≠ k) :
    hasKey (l.filter (fun p => !(p.1 == k))) x = hasKey l x := by
  induction l with
  | nil => rfl
  | cons q t ih =>
    by_cases hq : q.1 = k
    · rw [List.filter_cons, if_neg (by simp [hq]), ih, hasKey_cons]
      have hqx : (q.1 == x) = false := by
        rw [beq_eq_false_iff_ne, hq]
        exact fun he => hne he.symm
      rw [hqx, Bool.false_or]
    · rw [List.filter_cons, if_pos (by simp [hq]), hasKey_cons, hasKey_cons, ih]

theorem filter_pos_eq_nil_of_not_hasKey {l : List (String × String)} {k : String}
    (h : hasKey l k = false) : l.filter (fun p => p.1 == k) = [] := by
  rw [List.filter_eq_nil_iff]
  intro p hp
  simp only [hasKey, List.any_eq_false] at h
  exact h p hp

theorem filter_neg_eq_self_of_not_hasKey {l : List (String × String)} {k : String}
    (h : hasKey l k = false) : l.filter (fun p => !(p.1 == k)) = l := by
  rw [List.filter_eq_self]
  intro p hp
  simp only [hasKey, List.any_eq_false] at h
  simpa using h p hp

theorem lookupKey_mem {ps : List (String × String)} {k v : String}
    (h : lookupKey ps k = some v) : (k, v) ∈ ps := by
  induction ps with
  | nil => simp [lookupKey] at h
  | cons q t ih =>
    cases q with
    | mk k1 v1 =>
      rw [lookupKey] at h
      by_cases hk : k1 = k
      · rw [if_pos hk] at h
        exact hk ▸ (Option.some_inj.mp h) ▸ List.mem_cons_self _ _
      · rw [if_neg hk] at h
        exact List.mem_cons_of_mem _ (ih h)

theorem hasKey_of_lookupKey_some {ps : List (String × String)} {k v : String}
    (h : lookupKey ps k = some v) : hasKey ps k = true := by
  simp only [hasKey, List.any_eq_true]
  exact ⟨(k, v), lookupKey_mem h, by simp⟩

theorem nodup_filter_eq {ps : List (String × String)} {k v : String}
    (hn : (keysOf ps).Nodup) (h : lookupKey ps k = some v) :
    ps.filter (fun p => p.1 == k) = [(k, v)] := by
  induction ps with
  | nil => simp [lookupKey] at h
  | cons q t ih =>
    cases q with
    | mk k1 v1 =>
      rw [keysOf, List.map_cons, List.nodup_cons] at hn
      rw [lookupKey] at h
      by_cases hk : k1 = k
      · rw [if_pos hk] at h
        subst hk
        have hnt : hasKey t k1 = false := by
          rw [← Bool.not_eq_true, hasKey_iff_mem]
          exact hn.1
        rw [List.filter_cons, if_pos (by simp)]
        rw [filter_pos_eq_nil_of_not_hasKey hnt]
        simp [Option.some_inj.mp h]
      · rw [if_neg hk] at h
        rw [List.filter_cons, if_neg (by simp [hk])]
        exact ih hn.2 h


theorem hasKey_filter_self (t : List (String × String)) (k : String) :
    hasKey (t.filter (fun p => !(p.1 == k))) k = false := by
  simp only [hasKey, List.any_eq_false]
  intro p hp
  have := List.of_mem_filter hp
  simpa using this

theorem dedupeUpdate_nil_params (l : List (String × String)) : dedupeUpdate [] l = l := by
  induction l with
  | nil => simp only [dedupeUpdate]
  | cons p t ih =>
    cases p with
    | mk k v => simp only [dedupeUpdate, lookupKey, ih]

theorem dedupeUpdate_cons_aux {k v : String} {ps : List (String × String)} :
    ∀ n (l : List (String × String)), l.length ≤ n → hasKey l k = false →
      dedupeUpdate ((k, v) :: ps) l = dedupeUpdate ps l := by
  intro n
  induction n with
  | zero =>
    intro l hl _
    rw [Nat.le_zero, List.length_eq_zero] at hl
    subst hl
    simp only [dedupeUpdate]
  | succ n ih =>
    intro l hl hk
    match l with
    | [] => simp only [dedupeUpdate]
    | (k1, v1) :: t =>
      rw [hasKey_cons, Bool.or_eq_false_iff] at hk
      obtain ⟨hk1, hkt⟩ := hk
      have hk1' : k1 ≠ k := by simpa using hk1
      have hlk2 : lookupKey ((k, v) :: ps) k1 = lookupKey ps k1 := by
        rw [lookupKey, if_neg (fun he => hk1' he.symm)]
      rw [List.length_cons, Nat.succ_le_succ_iff] at hl
      cases hlk : lookupKey ps k1 with
      | some w =>
        simp only [dedupeUpdate, hlk2, hlk]
        congr 1
        exact ih _ (le_trans (List.length_filter_le _ _) hl) (hasKey_filter_false _ hkt)
      | none =>
        simp only [dedupeUpdate, hlk2, hlk]
        congr 1
        exact ih t hl hkt

theorem dedupeUpdate_cons_of_not_hasKey {k v : String} {ps l : List (String × String)}
    (h : hasKey l k = false) : dedupeUpdate ((k, v) :: ps) l = dedupeUpdate ps l :=
  dedupeUpdate_cons_aux l.length l le_rfl h

theorem dedupeUpdate_append_aux {k v : String} {ps : List (String × String)}
    (hnone : lookupKey ps k = none) :
    ∀ n (l : List (String × String)), l.length ≤ n →
      dedupeUpdate ps (l ++ [(k, v)]) = dedupeUpdate ps l ++ [(k, v)] := by
  intro n
  induction n with
  | zero =>
    intro l hl
    rw [Nat.le_zero, List.length_eq_zero] at hl
    subst hl
    simp only [List.nil_append, dedupeUpdate, hnone]
  | succ n ih =>
    intro l hl
    match l with
    | [] =>
      simp only [List.nil_append, dedupeUpdate, hnone]
    | (k1, v1) :: t =>
      rw [List.length_cons, Nat.succ_le_succ_iff] at hl
      cases hlk : lookupKey ps k1 with
      | some w =>
        have hkne : k ≠ k1 := by
          intro he
          rw [he, hlk] at hnone
          exact Option.noConfusion hnone
        rw [List.cons_append]
        simp only [dedupeUpdate, hlk]
        rw [List.filter_append]
        rw [show List.filter (fun p => !(p.1 == k1)) [(k, v)] = [(k, v)] by
          simp [hkne]]
        rw [ih _ (le_trans (List.length_filter_le _ _) hl)]
        rfl
      | none =>
        rw [List.cons_append]
        simp only [dedupeUpdate, hlk]
        rw [ih t hl]
        rfl

theorem dedupeUpdate_append_single {k v : String} {ps l : List (String × String)}
    (hnone : lookupKey ps k = none) :
    dedupeUpdate ps (l ++ [(k, v)]) = dedupeUpdate ps l ++ [(k, v)] :=
  dedupeUpdate_append_aux hnone l.length l le_rfl

theorem rfrr_filter_comm {k k1 v : String} (hne : k1 ≠ k) (l : List (String × String)) :
    (replaceFirstRemoveRest l k v).filter (fun p => !(p.1 == k1)) =
      replaceFirstRemoveRest (l.filter (fun p => !(p.1 == k1))) k v := by
  induction l with
  | nil => rfl
  | cons q t ih =>
    cases q with
    | mk a b =>
      by_cases ha : a = k
      · subst ha
        rw [replaceFirstRemoveRest, if_pos rfl]
        rw [List.filter_cons, if_pos (by simp; exact fun he => hne he.symm)]
        rw [List.filter_cons, if_pos (by simp; exact fun he => hne he.symm)]
        rw [replaceFirstRemoveRest, if_pos rfl]
        rw [List.filter_comm]
      · rw [replaceFirstRemoveRest, if_neg ha]
        by_cases ha1 : a = k1
        · rw [List.filter_cons, if_neg (by simp [ha1])]
          rw [List.filter_cons, if_neg (by simp [ha1])]
          exact ih
        · rw [List.filter_cons, if_pos (by simp [ha1])]
          rw [List.filter_cons, if_pos (by simp [ha1])]
          rw [replaceFirstRemoveRest, if_neg ha, ih]

theorem hasKey_rfrr {l : List (String × String)} {k : String} (v : String)
    (hl : hasKey l k = true) (x : String) :
    hasKey (replaceFirstRemoveRest l k v) x = hasKey l x := by
  induction l with
  | nil => simp [hasKey] at hl
  | cons q t ih =>
    cases q with
    | mk a b =>
      by_cases ha : a = k
      · subst ha
        rw [replaceFirstRemoveRest, if_pos rfl, hasKey_cons, hasKey_cons]
        by_cases hx : x = a
        · subst hx
          simp
        · rw [hasKey_filter_ne hx]
      · rw [replaceFirstRemoveRest, if_neg ha, hasKey_cons, hasKey_cons]
        have hl2 : hasKey t k = true := by
          rw [hasKey_cons, Bool.or_eq_true] at hl
          rcases hl with h | h
          · exact absurd (by simpa using h) ha
          · exact h
        rw [ih hl2]

theorem dedupeUpdate_rfrr_aux {k v : String} {ps : List (String × String)}
    (hnone : lookupKey ps k = none) :
    ∀ n (l : List (String × String)), l.length ≤ n → hasKey l k = true →
      dedupeUpdate ps (replaceFirstRemoveRest l k v) = dedupeUpdate ((k, v) :: ps) l := by
  intro n
  induction n with
  | zero =>
    intro l hl hk
    rw [Nat.le_zero, List.length_eq_zero] at hl
    subst hl
    simp [hasKey] at hk
  | succ n ih =>
    intro l hl hk
    match l with
    | [] => simp [hasKey] at hk
    | (k1, v1) :: t =>
      rw [List.length_cons, Nat.succ_le_succ_iff] at hl
      by_cases h1 : k1 = k
      · subst h1
        rw [replaceFirstRemoveRest, if_pos rfl]
        simp only [dedupeUpdate, hnone, lookupKey, if_pos rfl]
        congr 1
        exact (dedupeUpdate_cons_of_not_hasKey (hasKey_filter_self t k1)).symm
      · have hkt : hasKey t k = true := by
          rw [hasKey_cons, Bool.or_eq_true] at hk
          rcases hk with h | h
          · exact absurd (by simpa using h) h1
          · exact h
        rw [replaceFirstRemoveRest, if_neg h1]
        have hlk2 : lookupKey ((k, v) :: ps) k1 = lookupKey ps k1 := by
          rw [lookupKey, if_neg (fun he => h1 he.symm)]
        cases hlk : lookupKey ps k1 with
        | some w =>
          simp only [dedupeUpdate, hlk2, hlk]
          congr 1
          rw [rfrr_filter_comm h1]
          exact ih _ (le_trans (List.length_filter_le _ _) hl)
            ((hasKey_filter_ne (fun he => h1 he.symm)).trans hkt)
        | none =>
          simp only [dedupeUpdate, hlk2, hlk]
          congr 1
          exact ih t hl hkt

theorem dedupeUpdate_rfrr {k v : String} {ps l : List (String × String)}
    (hnone : lookupKey ps k = none) (hk : hasKey l k = true) :
    dedupeUpdate ps (replaceFirstRemoveRest l k v) = dedupeUpdate ((k, v) :: ps) l :=
  dedupeUpdate_rfrr_aux hnone l.length l le_rfl hk


/-! ### The merge loop computes the spec-described merge -/

theorem setAll_nil (l : List (String × String)) : setAll l [] = l := rfl

theorem setAll_cons (l : List (String × String)) (k v : String)
    (ps : List (String × String)) :
    setAll l ((k, v) :: ps) = setAll (setParam l k v) ps := rfl

theorem hasKey_eq_false_of_not_mem {l : List (String × String)} {k : String}
    (h : k ∉ keysOf l) : hasKey l k = false := by
  rw [Bool.eq_false_iff]
  intro hh
  exact h (hasKey_iff_mem.mp hh)

theorem setAll_eq_mergeSpecList :
    ∀ (ps : List (String × String)), (keysOf ps).Nodup →
      ∀ l, setAll l ps = mergeSpecList l ps := by
  intro ps
  induction ps with
  | nil =>
    intro _ l
    rw [setAll_nil, mergeSpecList, dedupeUpdate_nil_params, List.filter_nil,
      List.append_nil]
  | cons p ps ih =>
    intro hn l
    cases p with
    | mk k v =>
      rw [keysOf, List.map_cons, List.nodup_cons] at hn
      have hkmem : k ∉ keysOf ps := hn.1
      have hfalse : hasKey ps k = false := hasKey_eq_false_of_not_mem hkmem
      have hnone : lookupKey ps k = none := lookupKey_eq_none_of_not_hasKey hfalse
      rw [setAll_cons, ih hn.2]
      by_cases hL : hasKey l k = true
      · rw [setParam, if_pos hL]
        rw [mergeSpecList, mergeSpecList]
        rw [dedupeUpdate_rfrr hnone hL]
        have hfun : (fun p : String × String =>
            !(hasKey (replaceFirstRemoveRest l k v) p.1)) =
            (fun p : String × String => !(hasKey l p.1)) := by
          funext p
          rw [hasKey_rfrr v hL p.1]
        rw [hfun]
        rw [List.filter_cons, if_neg (by simp [hL])]
      · have hLf : hasKey l k = false := Bool.eq_false_iff.mpr hL
        rw [setParam, if_neg hL]
        rw [mergeSpecList, mergeSpecList]
        rw [dedupeUpdate_append_single hnone]
        rw [dedupeUpdate_cons_of_not_hasKey hLf]
        have hfilter : ps.filter (fun p => !(hasKey (l ++ [(k, v)]) p.1)) =
            ps.filter (fun p => !(hasKey l p.1)) := by
          apply List.filter_congr
          intro p hp
          have hpk : p.1 ≠ k := by
            intro he
            exact hkmem (he ▸ List.mem_map_of_mem Prod.fst hp)
          rw [hasKey_append]
          have h1 : hasKey [(k, v)] p.1 = false := by
            simp only [hasKey, List.any_cons, List.any_nil, Bool.or_false]
            simp only [beq_eq_false_iff_ne]
            exact fun he => hpk he.symm
          rw [h1, Bool.or_false]
        rw [hfilter]
        rw [List.filter_cons, if_pos (by simp [hLf])]
        rw [List.append_assoc, List.singleton_append]

/-! ### Structure of the merged list -/

theorem hasKey_dedupeUpdate_aux {ps : List (String × String)} {x : String} :
    ∀ n (l : List (String × String)), l.length ≤ n →
      hasKey (dedupeUpdate ps l) x = hasKey l x := by
  intro n
  induction n with
  | zero =>
    intro l hl
    rw [Nat.le_zero, List.length_eq_zero] at hl
    subst hl
    simp only [dedupeUpdate]
  | succ n ih =>
    intro l hl
    match l with
    | [] => simp only [dedupeUpdate]
    | (k1, v1) :: t =>
      rw [List.length_cons, Nat.succ_le_succ_iff] at hl
      cases hlk : lookupKey ps k1 with
      | some w =>
        simp only [dedupeUpdate, hlk, hasKey_cons]
        rw [ih _ (le_trans (List.length_filter_le _ _) hl)]
        by_cases hx : x = k1
        · subst hx
          simp
        · rw [hasKey_filter_ne hx]
      | none =>
        simp only [dedupeUpdate, hlk, hasKey_cons]
        rw [ih t hl]

theorem hasKey_dedupeUpdate {ps l : List (String × String)} {x : String} :
    hasKey (dedupeUpdate ps l) x = hasKey l x :=
  hasKey_dedupeUpdate_aux l.length l le_rfl

theorem filter_dedupeUpdate_of_some_aux {ps : List (String × String)} {k v : String}
    (hsome : lookupKey ps k = some v) :
    ∀ n (l : List (String × String)), l.length ≤ n →
      (dedupeUpdate ps l).filter (fun p => p.1 == k) =
        (if hasKey l k then [(k, v)] else []) := by
  intro n
  induction n with
  | zero =>
    intro l hl
    rw [Nat.le_zero, List.length_eq_zero] at hl
    subst hl
    simp only [dedupeUpdate, List.filter_nil, hasKey, List.any_nil, Bool.false_eq_true,
      if_false]
  | succ n ih =>
    intro l hl
    match l with
    | [] =>
      simp only [dedupeUpdate, List.filter_nil, hasKey, List.any_nil, Bool.false_eq_true,
        if_false]
    | (k1, v1) :: t =>
      rw [List.length_cons, Nat.succ_le_succ_iff] at hl
      by_cases hk1 : k1 = k
      · subst hk1
        simp only [dedupeUpdate, hsome]
        rw [List.filter_cons, if_pos (by simp)]
        rw [ih _ (le_trans (List.length_filter_le _ _) hl)]
        rw [show hasKey (t.filter (fun p => !(p.1 == k1))) k1 = false from
          hasKey_filter_self t k1]
        rw [hasKey_cons, if_neg (by simp)]
        simp
      · cases hlk : lookupKey ps k1 with
        | some w =>
          simp only [dedupeUpdate, hlk]
          rw [List.filter_cons, if_neg (by simp [hk1])]
          rw [ih _ (le_trans (List.length_filter_le _ _) hl)]
          rw [hasKey_filter_ne (fun he => hk1 he.symm)]
          rw [hasKey_cons]
          have : ((k1, v1).1 == k) = false := by simp [hk1]
          rw [this, Bool.false_or]
        | none =>
          have hk1k : k1 ≠ k := by
            intro he
            rw [he, hsome] at hlk
            exact Option.noConfusion hlk
          simp only [dedupeUpdate, hlk]
          rw [List.filter_cons, if_neg (by simp [hk1k])]
          rw [ih t hl]
          rw [hasKey_cons]
          have : ((k1, v1).1 == k) = false := by simp [hk1k]
          rw [this, Bool.false_or]

theorem filter_dedupeUpdate_of_some {ps l : List (String × String)} {k v : String}
    (hsome : lookupKey ps k = some v) :
    (dedupeUpdate ps l).filter (fun p => p.1 == k) =
      (if hasKey l k then [(k, v)] else []) :=
  filter_dedupeUpdate_of_some_aux hsome l.length l le_rfl

theorem filter_dedupeUpdate_of_none_aux {ps : List (String × String)} {k : String}
    (hnone : lookupKey ps k = none) :
    ∀ n (l : List (String × String)), l.length ≤ n →
      (dedupeUpdate ps l).filter (fun p => p.1 == k) =
        l.filter (fun p => p.1 == k) := by
  intro n
  induction n with
  | zero =>
    intro l hl
    rw [Nat.le_zero, List.length_eq_zero] at hl
    subst hl
    simp only [dedupeUpdate]
  | succ n ih =>
    intro l hl
    match l with
    | [] => simp only [dedupeUpdate]
    | (k1, v1) :: t =>
      rw [List.length_cons, Nat.succ_le_succ_iff] at hl
      cases hlk : lookupKey ps k1 with
      | some w =>
        have hk1k : k ≠ k1 := by
          intro he
          rw [he, hlk] at hnone
          exact Option.noConfusion hnone
        simp only [dedupeUpdate, hlk]
        rw [List.filter_cons, if_neg (by simp; exact fun he => hk1k he.symm)]
        rw [List.filter_cons, if_neg (by simp; exact fun he => hk1k he.symm)]
        rw [ih _ (le_trans (List.length_filter_le _ _) hl)]
        rw [List.filter_comm]
        apply List.filter_eq_self.mpr
        intro p hp
        have := List.of_mem_filter hp
        simp only [beq_iff_eq] at this
        simp only [Bool.not_eq_true', beq_eq_false_iff_ne]
        rw [this]
        exact fun he => hk1k he
      | none =>
        by_cases hk1 : k1 = k
        · subst hk1
          simp only [dedupeUpdate, hlk]
          rw [List.filter_cons, if_pos (by simp)]
          rw [List.filter_cons, if_pos (by simp)]
          rw [ih t hl]
        · simp only [dedupeUpdate, hlk]
          rw [List.filter_cons, if_neg (by simp [hk1])]
          rw [List.filter_cons, if_neg (by simp [hk1])]
          rw [ih t hl]

theorem filter_dedupeUpdate_of_none {ps l : List (String × String)} {k : String}
    (hnone : lookupKey ps k = none) :
    (dedupeUpdate ps l).filter (fun p => p.1 == k) = l.filter (fun p => p.1 == k) :=
  filter_dedupeUpdate_of_none_aux hnone l.length l le_rfl


/-! ### Idempotence of the merge -/

theorem hasKey_eq_false_of_filter_nil {t : List (String × String)} {k : String}
    (h : t.filter (fun p => p.1 == k) = []) : hasKey t k = false := by
  simp only [hasKey, List.any_eq_false]
  exact fun p hp => (List.filter_eq_nil_iff.mp h) p hp

theorem dedupeUpdate_eq_self_aux {ps : List (String × String)} :
    ∀ n (l : List (String × String)), l.length ≤ n →
      (∀ k v, lookupKey ps k = some v →
        l.filter (fun p => p.1 == k) = [(k, v)] ∨ l.filter (fun p => p.1 == k) = []) →
      dedupeUpdate ps l = l := by
  intro n
  induction n with
  | zero =>
    intro l hl _
    rw [Nat.le_zero, List.length_eq_zero] at hl
    subst hl
    simp only [dedupeUpdate]
  | succ n ih =>
    intro l hl hs
    match l with
    | [] => simp only [dedupeUpdate]
    | (k1, v1) :: t =>
      rw [List.length_cons, Nat.succ_le_succ_iff] at hl
      cases hlk : lookupKey ps k1 with
      | some w =>
        have hsk1 := hs k1 w hlk
        rw [List.filter_cons, if_pos (by simp)] at hsk1
        rcases hsk1 with h1 | h1
        · rw [List.cons.injEq] at h1
          have hv1 : (k1, v1) = (k1, w) := h1.1
          have htf : t.filter (fun p => p.1 == k1) = [] := h1.2
          have hT : hasKey t k1 = false := hasKey_eq_false_of_filter_nil htf
          simp only [dedupeUpdate, hlk]
          rw [filter_neg_eq_self_of_not_hasKey hT]
          rw [ih t hl]
          · rw [show w = v1 from (Prod.mk.injEq _ _ _ _ |>.mp hv1).2.symm]
          · intro k v hkv
            by_cases hk : k = k1
            · subst hk
              exact Or.inr htf
            · have := hs k v hkv
              rw [List.filter_cons, if_neg (by simp; exact fun he => hk he.symm)] at this
              exact this
        · exact absurd h1 (List.cons_ne_nil _ _)
      | none =>
        simp only [dedupeUpdate, hlk]
        rw [ih t hl]
        intro k v hkv
        have hk : k ≠ k1 := by
          intro he
          rw [he, hlk] at hkv
          exact Option.noConfusion hkv
        have := hs k v hkv
        rw [List.filter_cons, if_neg (by simp; exact fun he => hk he.symm)] at this
        exact this

theorem mergeSpecList_filter_settled {ps l : List (String × String)}
    (hn : (keysOf ps).Nodup) :
    ∀ k v, lookupKey ps k = some v →
      (mergeSpecList l ps).filter (fun p => p.1 == k) = [(k, v)] ∨
        (mergeSpecList l ps).filter (fun p => p.1 == k) = [] := by
  intro k v hkv
  rw [mergeSpecList, List.filter_append]
  rw [filter_dedupeUpdate_of_some hkv]
  have hA : (ps.filter (fun p => !(hasKey l p.1))).filter (fun p => p.1 == k) =
      (if hasKey l k then [] else [(k, v)]) := by
    rw [List.filter_comm, nodup_filter_eq hn hkv]
    by_cases hLk : hasKey l k = true
    · rw [if_pos hLk]
      simp [List.filter_cons, hLk]
    · have hLf := Bool.eq_false_iff.mpr hLk
      rw [if_neg hLk]
      simp [List.filter_cons, hLf]
  rw [hA]
  by_cases hLk : hasKey l k = true
  · rw [if_pos hLk, if_pos hLk]
    left
    simp
  · rw [if_neg hLk, if_neg hLk]
    left
    simp

theorem setAll_mergeSpecList_fixed {ps l : List (String × String)}
    (hn : (keysOf ps).Nodup) :
    mergeSpecList (mergeSpecList l ps) ps = mergeSpecList l ps := by
  have h1 : dedupeUpdate ps (mergeSpecList l ps) = mergeSpecList l ps :=
    dedupeUpdate_eq_self_aux (mergeSpecList l ps).length _ le_rfl
      (mergeSpecList_filter_settled hn)
  have h2 : ps.filter (fun p => !(hasKey (mergeSpecList l ps) p.1)) = [] := by
    rw [List.filter_eq_nil_iff]
    intro p hp
    have hM : hasKey (mergeSpecList l ps) p.1 = true := by
      rw [mergeSpecList, hasKey_append, hasKey_dedupeUpdate]
      by_cases hL : hasKey l p.1 = true
      · rw [hL, Bool.true_or]
      · have hLf := Bool.eq_false_iff.mpr hL
        rw [hLf, Bool.false_or]
        simp only [hasKey, List.any_eq_true]
        refine ⟨p, List.mem_filter.mpr ⟨hp, ?_⟩, by simp⟩
        show (!(hasKey l p.1)) = true
        rw [hLf]
        rfl
    rw [hM]
    simp
  conv_lhs => rw [mergeSpecList]
  rw [h1, h2, List.append_nil]

theorem setAll_idem {ps : List (String × String)} (hn : (keysOf ps).Nodup)
    (l : List (String × String)) :
    setAll (setAll l ps) ps = setAll l ps := by
  rw [setAll_eq_mergeSpecList ps hn l, setAll_eq_mergeSpecList ps hn (mergeSpecList l ps)]
  exact setAll_mergeSpecList_fixed hn


/-! ## The URL model

The source calls the host's `new URL(baseUrl)` and `url.href`.  We model the
WHATWG basic URL parser restricted to absolute URLs in canonical
`scheme://host[/path][?query][#fragment]` textual form; an input without this
shape makes the constructor throw, which the model renders as `none`. -/

/-- ASCII letter. -/
def isAlphaChar (c : Char) : Bool := decide (('a' ≤ c ∧ c ≤ 'z') ∨ ('A' ≤ c ∧ c ≤ 'Z'))

/-- Characters allowed in a scheme. -/
def isSchemeChar (c : Char) : Bool :=
  isAlphaChar c || decide ('0' ≤ c ∧ c ≤ '9') || c == '+' || c == '-' || c == '.'

/-- Characters that end the host component. -/
def isHostEnd (c : Char) : Bool := c == '/' || c == '?' || c == '#'

/-- Characters that end the path component. -/
def isPathEnd (c : Char) : Bool := c == '?' || c == '#'

/-- A parsed URL record.  `query` and `fragment` distinguish absent (`none`)
from present-but-empty (`some []`), as the platform does. -/
structure URLRec where
  scheme : List Char
  host : List Char
  path : List Char
  query : Option (List Char)
  fragment : Option (List Char)
deriving DecidableEq

/-- Modelled host API `new URL`: parse an absolute URL.  An empty path
serializes as `/`, as the standard requires for special schemes. -/
def parseURL (s : List Char) : Option URLRec :=
  let scheme := s.takeWhile isSchemeChar
  let rest := s.dropWhile isSchemeChar
  match scheme, rest with
  | c :: _, ':' :: '/' :: '/' :: r3 =>
    if isAlphaChar c then
      let host := r3.takeWhile (fun x => !(isHostEnd x))
      let r4 := r3.dropWhile (fun x => !(isHostEnd x))
      if host.isEmpty then none
      else
        let path := r4.takeWhile (fun x => !(isPathEnd x))
        let r5 := r4.dropWhile (fun x => !(isPathEnd x))
        let pathN := if path.isEmpty then ['/'] else path
        match r5 with
        | '?' :: r6 =>
          let q := r6.takeWhile (fun x => !(x == '#'))
          let r7 := r6.dropWhile (fun x => !(x == '#'))
          match r7 with
          | '#' :: f => some ⟨scheme, host, pathN, some q, some f⟩
          | _ => some ⟨scheme, host, pathN, some q, none⟩
        | '#' :: f => some ⟨scheme, host, pathN, none, some f⟩
        | _ => some ⟨scheme, host, pathN, none, none⟩
    else none
  | _, _ => none

/-- Modelled host API `url.href`: serialize the record. -/
def serializeURL (u : URLRec) : String :=
  String.mk (u.scheme ++ ':' :: '/' :: '/' :: u.host ++ u.path ++
    (match u.query with | some q => '?' :: q | none => []) ++
    (match u.fragment with | some f => '#' :: f | none => []))

/-! ## The error model and the four library functions -/

/-- The spec's error taxonomy: `InvalidUrlError` from the URL parser,
`TypeMismatchError` with its message from the element type checks. -/
inductive QHError where
  | invalidUrl : QHError
  | typeMismatch : String → QHError
deriving DecidableEq

/-- URLSearchParams removes one leading `?` from its input. -/
def stripQuestion : List Char → List Char
  | '?' :: t => t
  | s => s

/-- The pair list that `new URLSearchParams(window.location.search)` holds,
given the location's search string. -/
def parseSearch (search : String) : List (String × String) :=
  parseQueryChars (stripQuestion search.data)

/-- One JS object assignment `result[key] = value`: an existing key keeps its
property-creation position and gets the new value, a new key is appended. -/
def updateValue : List (String × String) → String → String → List (String × String)
  | [], _, _ => []
  | (k', v') :: t, k, v => if k' = k then (k, v) :: t else (k', v') :: updateValue t k v

/-- JS object assignment step used by the forEach loop.  This tracks the
object's property-creation order; the order in which the object's entries are
then enumerated is `jsObjectOrder` below. -/
def objSet (obj : List (String × String)) (kv : String × String) :
    List (String × String) :=
  if hasKey obj kv.1 then updateValue obj kv.1 kv.2 else obj ++ [kv]

/-- ASCII decimal digit. -/
def isDigitChar (c : Char) : Bool := decide ('0' ≤ c ∧ c ≤ '9')

/-- Numeric value of a decimal digit sequence. -/
def digitsToNat (s : List Char) : Nat :=
  s.foldl (fun a c => a * 10 + (c.toNat - 48)) 0

/-- Numeric value of a key, used to order integer-indexed object keys. -/
def keyNum (s : String) : Nat := digitsToNat s.data

/-- An ECMAScript array-index key: the canonical decimal string (digits only,
no leading zero except "0" itself) of an integer below 2^32 - 1. -/
def isArrayIndex (s : String) : Bool :=
  match s.data with
  | [] => false
  | c :: t =>
    (c :: t).all isDigitChar && decide (c = '0' → t = []) &&
      decide (digitsToNat (c :: t) < 4294967295)

/-- Insert one entry into a list sorted by ascending numeric key value. -/
def insertPairByNum (p : String × String) :
    List (String × String) → List (String × String)
  | [] => [p]
  | q :: t => if keyNum p.1 ≤ keyNum q.1 then p :: q :: t else q :: insertPairByNum p t

/-- Sort entries by ascending numeric key value (insertion sort). -/
def sortByKeyNum : List (String × String) → List (String × String)
  | [] => []
  | p :: t => insertPairByNum p (sortByKeyNum t)

/-- ECMAScript own-property key order for a plain object: array-index keys
first, in ascending numeric order, then the remaining string keys in
property-creation order.  This is the order `Object.entries` and object
enumeration expose. -/
def jsObjectOrder (obj : List (String × String)) : List (String × String) :=
  sortByKeyNum (obj.filter (fun p => isArrayIndex p.1)) ++
    obj.filter (fun p => !(isArrayIndex p.1))

/-- getAllQueryParams: read the location's search string, iterate its pairs
with forEach and assign each into a fresh object; the returned object's
entries come out in ECMAScript own-property order. -/
def getAllQueryParams (search : String) : List (String × String) :=
  jsObjectOrder ((parseSearch search).foldl objSet [])

/-- appendQueryParams: parse baseUrl (throwing InvalidUrlError when it is not
parseable), set every entry of params on its search parameters, and return
the serialized URL.  When params is empty the loop body never runs, so the
searchParams object is never touched and the original query survives
verbatim; otherwise the query is the urlencoded serialization of the final
parameter list. -/
def appendQueryParams (baseUrl : String) (params : List (String × String)) :
    Except QHError String :=
  match parseURL baseUrl.data with
  | none => Except.error QHError.invalidUrl
  | some u =>
    match params with
    | [] => Except.ok (serializeURL u)
    | _ :: _ =>
      let l := parseQueryChars (u.query.getD [])
      let merged := setAll l params
      Except.ok (serializeURL { u with query := some (serializeQueryChars merged) })

/-- The kinds of DOM element the library distinguishes. -/
inductive ElemKind where
  | iframe : ElemKind
  | anchor : ElemKind
  | other : ElemKind
deriving DecidableEq

/-- A DOM element with its navigation-target attributes. -/
structure DomElement where
  kind : ElemKind
  src : String
  href : String
deriving DecidableEq

/-- setIframeSrcWithQuery: check the element is an iframe, read the current
query parameters, merge them into the base URL and assign the frame's src.
The result is the raised error (if any) paired with the element after the
call; both error paths leave the element untouched. -/
def setIframeSrcWithQuery (el : DomElement) (baseIframeUrl : String) (search : String) :
    Option QHError × DomElement :=
  if el.kind = ElemKind.iframe then
    match appendQueryParams baseIframeUrl (getAllQueryParams search) with
    | Except.error e => (some e, el)
    | Except.ok u => (none, { el with src := u })
  else (some (QHError.typeMismatch "Provided element is not a valid iframe"), el)

/-- generateLinkWithQuery: check the element is an anchor, read the current
query parameters, merge them into the base URL and assign the anchor's href. -/
def generateLinkWithQuery (baseUrl : String) (el : DomElement) (search : String) :
    Option QHError × DomElement :=
  if el.kind = ElemKind.anchor then
    match appendQueryParams baseUrl (getAllQueryParams search) with
    | Except.error e => (some e, el)
    | Except.ok u => (none, { el with href := u })
  else (some (QHError.typeMismatch "Provided element is not a valid anchor element"), el)


/-! ### Well-formedness of parsed records and the parse/serialize roundtrip -/

/-- Shape invariants of every record the parser produces. -/
def wfURL (u : URLRec) : Prop :=
  (∃ c t, u.scheme = c :: t ∧ isAlphaChar c = true) ∧
  (∀ c ∈ u.scheme, isSchemeChar c = true) ∧
  u.host ≠ [] ∧ (∀ c ∈ u.host, isHostEnd c = false) ∧
  (∃ t, u.path = '/' :: t) ∧ (∀ c ∈ u.path, isPathEnd c = false) ∧
  (∀ q, u.query = some q → ∀ c ∈ q, (c == '#') = false)

theorem takeWhile_append_all {p : Char → Bool} :
    ∀ (xs ys : List Char), (∀ x ∈ xs, p x = true) →
      (∀ y, ys.head? = some y → p y = false) →
      (xs ++ ys).takeWhile p = xs ∧ (xs ++ ys).dropWhile p = ys := by
  intro xs
  induction xs with
  | nil =>
    intro ys _ hy
    refine ⟨?_, ?_⟩
    · cases ys with
      | nil => rfl
      | cons y t =>
        rw [List.nil_append, List.takeWhile_cons, hy y rfl]
        rfl
    · cases ys with
      | nil => rfl
      | cons y t =>
        rw [List.nil_append, List.dropWhile_cons, hy y rfl]
        rfl
  | cons x xs ih =>
    intro ys hx hy
    have hpx := hx x (List.mem_cons_self _ _)
    obtain ⟨h1, h2⟩ := ih ys (fun a ha => hx a (List.mem_cons_of_mem _ ha)) hy
    refine ⟨?_, ?_⟩
    · rw [List.cons_append, List.takeWhile_cons, hpx]
      simp only [if_true, h1]
    · rw [List.cons_append, List.dropWhile_cons, hpx]
      simp only [if_true, h2]

theorem head?_dropWhile_negative {p : Char → Bool} :
    ∀ (l : List Char) (y : Char), (l.dropWhile p).head? = some y → p y = false := by
  intro l
  induction l with
  | nil => intro y h; exact absurd h (by simp)
  | cons x t ih =>
    intro y h
    rw [List.dropWhile_cons] at h
    by_cases hp : p x = true
    · rw [if_pos hp] at h
      exact ih y h
    · rw [if_neg hp] at h
      simp only [List.head?_cons, Option.some_inj] at h
      rw [← h]
      exact Bool.eq_false_iff.mpr hp

theorem mem_takeWhile_true {p : Char → Bool} :
    ∀ (l : List Char) (x : Char), x ∈ l.takeWhile p → p x = true := by
  intro l
  induction l with
  | nil => intro x h; exact absurd h (by simp)
  | cons a t ih =>
    intro x h
    rw [List.takeWhile_cons] at h
    by_cases hp : p a = true
    · rw [if_pos hp] at h
      rcases List.mem_cons.mp h with h | h
      · exact h ▸ hp
      · exact ih x h
    · rw [if_neg hp] at h
      exact absurd h (by simp)

theorem serializeURL_data (u : URLRec) :
    (serializeURL u).data = u.scheme ++ ':' :: '/' :: '/' ::
      (u.host ++ (u.path ++
        ((match u.query with | some q => '?' :: q | none => []) ++
          (match u.fragment with | some f => '#' :: f | none => [])))) := by
  show (u.scheme ++ ':' :: '/' :: '/' :: u.host ++ u.path ++ _ ++ _) = _
  simp [List.append_assoc]


theorem parseURL_serializeURL {u : URLRec} (h : wfURL u) :
    parseURL (serializeURL u).data = some u := by
  obtain ⟨sch, host, path, query, frag⟩ := u
  obtain ⟨⟨c0, t0, hs0, ha0⟩, hs, hh0, hh, ⟨tp, hp0⟩, hp, hq⟩ := h
  simp only at hs0 ha0 hs hh0 hh hp0 hp hq
  subst hs0
  subst hp0
  rw [serializeURL_data]
  simp only
  have hHostEmpty : host.isEmpty = false := by
    cases host with
    | nil => exact absurd rfl hh0
    | cons a b => rfl
  cases query with
  | some q =>
    cases frag with
    | some f =>
      obtain ⟨htake1, hdrop1⟩ := takeWhile_append_all (p := isSchemeChar) (c0 :: t0)
        (':' :: '/' :: '/' :: (host ++ (('/' :: tp) ++ ('?' :: q ++ '#' :: f)))) hs
        (by intro y hy
            simp only [List.head?_cons, Option.some_inj] at hy
            rw [← hy]
            rfl)
      obtain ⟨htake2, hdrop2⟩ := takeWhile_append_all (p := fun x => !(isHostEnd x)) host
        (('/' :: tp) ++ ('?' :: q ++ '#' :: f))
        (by intro x hx
            show (!(isHostEnd x)) = true
            rw [hh x hx]
            rfl)
        (by intro y hy
            simp only [List.cons_append, List.head?_cons, Option.some_inj] at hy
            rw [← hy]
            rfl)
      obtain ⟨htake3, hdrop3⟩ := takeWhile_append_all (p := fun x => !(isPathEnd x))
        ('/' :: tp) ('?' :: q ++ '#' :: f)
        (by intro x hx
            show (!(isPathEnd x)) = true
            rw [hp x hx]
            rfl)
        (by intro y hy
            simp only [List.cons_append, List.head?_cons, Option.some_inj] at hy
            rw [← hy]
            rfl)
      obtain ⟨htake4, hdrop4⟩ := takeWhile_append_all (p := fun x => !(x == '#')) q
        ('#' :: f)
        (by intro x hx
            show (!(x == '#')) = true
            rw [hq q rfl x hx]
            rfl)
        (by intro y hy
            simp only [List.head?_cons, Option.some_inj] at hy
            rw [← hy]
            rfl)
      simp only [parseURL]
      rw [htake1, hdrop1]
      simp only [if_pos ha0]
      rw [htake2, hdrop2, htake3, hdrop3]
      rw [hHostEmpty]
      simp only [Bool.false_eq_true, if_false]
      simp [htake4, hdrop4]
    | none =>
      simp only [List.append_nil]
      obtain ⟨htake1, hdrop1⟩ := takeWhile_append_all (p := isSchemeChar) (c0 :: t0)
        (':' :: '/' :: '/' :: (host ++ (('/' :: tp) ++ ('?' :: q)))) hs
        (by intro y hy
            simp only [List.head?_cons, Option.some_inj] at hy
            rw [← hy]
            rfl)
      obtain ⟨htake2, hdrop2⟩ := takeWhile_append_all (p := fun x => !(isHostEnd x)) host
        (('/' :: tp) ++ ('?' :: q))
        (by intro x hx
            show (!(isHostEnd x)) = true
            rw [hh x hx]
            rfl)
        (by intro y hy
            simp only [List.cons_append, List.head?_cons, Option.some_inj] at hy
            rw [← hy]
            rfl)
      obtain ⟨htake3, hdrop3⟩ := takeWhile_append_all (p := fun x => !(isPathEnd x))
        ('/' :: tp) ('?' :: q)
        (by intro x hx
            show (!(isPathEnd x)) = true
            rw [hp x hx]
            rfl)
        (by intro y hy
            simp only [List.head?_cons, Option.some_inj] at hy
            rw [← hy]
            rfl)
      have htake4 : List.takeWhile (fun x => !(x == '#')) q = q := by
        rw [List.takeWhile_eq_self_iff]
        intro x hx
        show (!(x == '#')) = true
        rw [hq q rfl x hx]
        rfl
      have hdrop4 : List.dropWhile (fun x => !(x == '#')) q = [] := by
        rw [List.dropWhile_eq_nil_iff]
        intro x hx
        show (!(x == '#')) = true
        rw [hq q rfl x hx]
        rfl
      simp only [parseURL]
      rw [htake1, hdrop1]
      simp only [if_pos ha0]
      rw [htake2, hdrop2, htake3, hdrop3]
      rw [hHostEmpty]
      simp only [Bool.false_eq_true, if_false]
      simp [htake4, hdrop4]
  | none =>
    cases frag with
    | some f =>
      simp only [List.nil_append]
      obtain ⟨htake1, hdrop1⟩ := takeWhile_append_all (p := isSchemeChar) (c0 :: t0)
        (':' :: '/' :: '/' :: (host ++ (('/' :: tp) ++ ('#' :: f)))) hs
        (by intro y hy
            simp only [List.head?_cons, Option.some_inj] at hy
            rw [← hy]
            rfl)
      obtain ⟨htake2, hdrop2⟩ := takeWhile_append_all (p := fun x => !(isHostEnd x)) host
        (('/' :: tp) ++ ('#' :: f))
        (by intro x hx
            show (!(isHostEnd x)) = true
            rw [hh x hx]
            rfl)
        (by intro y hy
            simp only [List.cons_append, List.head?_cons, Option.some_inj] at hy
            rw [← hy]
            rfl)
      obtain ⟨htake3, hdrop3⟩ := takeWhile_append_all (p := fun x => !(isPathEnd x))
        ('/' :: tp) ('#' :: f)
        (by intro x hx
            show (!(isPathEnd x)) = true
            rw [hp x hx]
            rfl)
        (by intro y hy
            simp only [List.head?_cons, Option.some_inj] at hy
            rw [← hy]
            rfl)
      simp only [parseURL]
      rw [htake1, hdrop1]
      simp only [if_pos ha0]
      rw [htake2, hdrop2, htake3, hdrop3]
      rw [hHostEmpty]
      simp only [Bool.false_eq_true, if_false]
      simp
    | none =>
      simp only [List.nil_append, List.append_nil]
      obtain ⟨htake1, hdrop1⟩ := takeWhile_append_all (p := isSchemeChar) (c0 :: t0)
        (':' :: '/' :: '/' :: (host ++ ('/' :: tp))) hs
        (by intro y hy
            simp only [List.head?_cons, Option.some_inj] at hy
            rw [← hy]
            rfl)
      obtain ⟨htake2, hdrop2⟩ := takeWhile_append_all (p := fun x => !(isHostEnd x)) host
        ('/' :: tp)
        (by intro x hx
            show (!(isHostEnd x)) = true
            rw [hh x hx]
            rfl)
        (by intro y hy
            simp only [List.head?_cons, Option.some_inj] at hy
            rw [← hy]
            rfl)
      have htake3 : List.takeWhile (fun x => !(isPathEnd x)) ('/' :: tp) = '/' :: tp := by
        rw [List.takeWhile_eq_self_iff]
        intro x hx
        show (!(isPathEnd x)) = true
        rw [hp x hx]
        rfl
      have hdrop3 : List.dropWhile (fun x => !(isPathEnd x)) ('/' :: tp) = [] := by
        rw [List.dropWhile_eq_nil_iff]
        intro x hx
        show (!(isPathEnd x)) = true
        rw [hp x hx]
        rfl
      simp only [parseURL]
      rw [htake1, hdrop1]
      simp only [if_pos ha0]
      rw [htake2, hdrop2, htake3, hdrop3]
      rw [hHostEmpty]
      simp only [Bool.false_eq_true, if_false]
      simp

theorem isEmpty_false_ne_nil {l : List Char} (h : ¬ l.isEmpty = true) : l ≠ [] := by
  intro he
  subst he
  exact h rfl

theorem parseURL_wf {s : List Char} {u : URLRec} (h : parseURL s = some u) : wfURL u := by
  simp only [parseURL] at h
  split at h
  case h_2 => exact absurd h (by simp)
  case h_1 c t r3 heqt heqd =>
    split at h
    case isFalse => exact absurd h (by simp)
    case isTrue halpha =>
      split at h
      case isTrue => exact absurd h (by simp)
      case isFalse hhostNE =>
        have hscheme0 : ∃ c' t', List.takeWhile isSchemeChar s = c' :: t' ∧
            isAlphaChar c' = true := ⟨c, t, heqt, halpha⟩
        have hschemeAll : ∀ x ∈ List.takeWhile isSchemeChar s, isSchemeChar x = true :=
          fun x hx => mem_takeWhile_true s x hx
        have hhostNE2 : List.takeWhile (fun x => !(isHostEnd x)) r3 ≠ [] :=
          isEmpty_false_ne_nil hhostNE
        have hhostAll : ∀ x ∈ List.takeWhile (fun x => !(isHostEnd x)) r3,
            isHostEnd x = false := by
          intro x hx
          have := mem_takeWhile_true r3 x hx
          simpa using this
        have hpathChars : ∀ x ∈ (if (List.takeWhile (fun x => !(isPathEnd x))
            (List.dropWhile (fun x => !(isHostEnd x)) r3)).isEmpty = true then ['/']
            else List.takeWhile (fun x => !(isPathEnd x))
              (List.dropWhile (fun x => !(isHostEnd x)) r3)), isPathEnd x = false := by
          intro x hx
          split at hx
          · rcases List.mem_singleton.mp hx with rfl
            rfl
          · have := mem_takeWhile_true _ x hx
            simpa using this
        have hpathSlash : ∃ tl, (if (List.takeWhile (fun x => !(isPathEnd x))
            (List.dropWhile (fun x => !(isHostEnd x)) r3)).isEmpty = true then ['/']
            else List.takeWhile (fun x => !(isPathEnd x))
              (List.dropWhile (fun x => !(isHostEnd x)) r3)) = '/' :: tl := by
          split
          · exact ⟨[], rfl⟩
          · rename_i hPE
            cases hr4 : List.dropWhile (fun x => !(isHostEnd x)) r3 with
            | nil =>
              rw [hr4] at hPE
              exact absurd rfl hPE
            | cons y r4t =>
              rw [List.takeWhile_cons]
              rw [hr4] at hPE
              by_cases hcond : (!(isPathEnd y)) = true
              · rw [if_pos hcond]
                have hy : (!(isHostEnd y)) = false :=
                  head?_dropWhile_negative (p := fun x => !(isHostEnd x)) r3 y
                    (by rw [hr4]; rfl)
                have hHE : isHostEnd y = true := by
                  cases hc : isHostEnd y with
                  | false =>
                    rw [hc] at hy
                    exact absurd hy (by simp)
                  | true => rfl
                have hPEy : isPathEnd y = false := by
                  cases hc : isPathEnd y with
                  | false => rfl
                  | true =>
                    rw [hc] at hcond
                    exact absurd hcond (by simp)
                have hySlash : y = '/' := by
                  simp only [isHostEnd, Bool.or_eq_true, beq_iff_eq] at hHE
                  simp only [isPathEnd, Bool.or_eq_false_iff, beq_eq_false_iff_ne] at hPEy
                  rcases hHE with (hc | hc) | hc
                  · exact hc
                  · exact absurd hc hPEy.1
                  · exact absurd hc hPEy.2
                exact ⟨_, by rw [hySlash]⟩
              · rw [List.takeWhile_cons, if_neg hcond] at hPE
                exact absurd rfl hPE
        split at h
        case h_1 r6 heq5 =>
          split at h
          case h_1 f heq7 =>
            rw [Option.some_inj] at h
            subst h
            exact ⟨hscheme0, hschemeAll, hhostNE2, hhostAll, hpathSlash, hpathChars,
              fun qq hqq x hx => by
                rw [Option.some_inj] at hqq
                subst hqq
                have := mem_takeWhile_true _ x hx
                simpa using this⟩
          case h_2 =>
            rw [Option.some_inj] at h
            subst h
            exact ⟨hscheme0, hschemeAll, hhostNE2, hhostAll, hpathSlash, hpathChars,
              fun qq hqq x hx => by
                rw [Option.some_inj] at hqq
                subst hqq
                have := mem_takeWhile_true _ x hx
                simpa using this⟩
        case h_2 f heq5 =>
          rw [Option.some_inj] at h
          subst h
          exact ⟨hscheme0, hschemeAll, hhostNE2, hhostAll, hpathSlash, hpathChars,
            fun qq hqq => by exact absurd hqq (by simp)⟩
        case h_3 =>
          rw [Option.some_inj] at h
          subst h
          exact ⟨hscheme0, hschemeAll, hhostNE2, hhostAll, hpathSlash, hpathChars,
            fun qq hqq => by exact absurd hqq (by simp)⟩


/-! ### The serialized query never contains a hash -/

theorem mem_joinAmp {ls : List (List Char)} {c : Char} (h : c ∈ joinAmp ls) :
    (∃ s ∈ ls, c ∈ s) ∨ c = '&' := by
  induction ls with
  | nil => exact absurd h (by simp [joinAmp])
  | cons s t ih =>
    cases t with
    | nil => exact Or.inl ⟨s, by simp, by simpa [joinAmp] using h⟩
    | cons s2 t2 =>
      rw [show joinAmp (s :: s2 :: t2) = s ++ '&' :: joinAmp (s2 :: t2) from rfl] at h
      rcases List.mem_append.mp h with h | h
      · exact Or.inl ⟨s, List.mem_cons_self _ _, h⟩
      · rcases List.mem_cons.mp h with h | h
        · exact Or.inr h
        · rcases ih h with ⟨s3, hs3, hc⟩ | h
          · exact Or.inl ⟨s3, List.mem_cons_of_mem _ hs3, hc⟩
          · exact Or.inr h

theorem serializeQueryChars_no_hash (l : List (String × String)) :
    ∀ c ∈ serializeQueryChars l, (c == '#') = false := by
  intro c hc
  rw [serializeQueryChars] at hc
  rcases mem_joinAmp hc with ⟨sp, hsp, hcs⟩ | h
  · rw [List.mem_map] at hsp
    obtain ⟨p, _, hpe⟩ := hsp
    subst hpe
    rw [serializePair] at hcs
    rcases List.mem_append.mp hcs with h | h
    · have := (encodeComponent_chars p.1 c h).2.2.2
      simpa using this
    · rcases List.mem_cons.mp h with h | h
      · subst h
        rfl
      · have := (encodeComponent_chars p.2 c h).2.2.2
        simpa using this
  · subst h
    rfl

theorem wfURL_setQuery {u : URLRec} (h : wfURL u) (l : List (String × String)) :
    wfURL { u with query := some (serializeQueryChars l) } := by
  obtain ⟨h1, h2, h3, h4, h5, h6, _⟩ := h
  refine ⟨h1, h2, h3, h4, h5, h6, fun q hq => ?_⟩
  simp only [Option.some_inj] at hq
  subst hq
  exact fun c hc => serializeQueryChars_no_hash l c hc

/-! ### Unfolding appendQueryParams -/

/-- The parameter list held by the parsed URL's search params. -/
def urlSearchList (u : URLRec) : List (String × String) :=
  parseQueryChars (u.query.getD [])

theorem mergeSpecList_nil (l : List (String × String)) : mergeSpecList l [] = l := by
  rw [mergeSpecList, dedupeUpdate_nil_params, List.filter_nil, List.append_nil]

theorem appendQueryParams_ok_empty {url : String} {u : URLRec}
    (h : parseURL url.data = some u) :
    appendQueryParams url [] = Except.ok (serializeURL u) := by
  rw [appendQueryParams, h]

theorem appendQueryParams_ok_cons {url : String} {u : URLRec} {p : String × String}
    {ps : List (String × String)} (h : parseURL url.data = some u) :
    appendQueryParams url (p :: ps) = Except.ok (serializeURL { u with
      query := some (serializeQueryChars (setAll (urlSearchList u) (p :: ps))) }) := by
  rw [appendQueryParams, h]
  rfl

theorem appendQueryParams_error {url : String} (ps : List (String × String))
    (h : parseURL url.data = none) :
    appendQueryParams url ps = Except.error QHError.invalidUrl := by
  rw [appendQueryParams, h]

theorem appendQueryParams_isOk {url : String} {u : URLRec}
    (h : parseURL url.data = some u) (ps : List (String × String)) :
    ∃ r, appendQueryParams url ps = Except.ok r := by
  cases ps with
  | nil => exact ⟨_, appendQueryParams_ok_empty h⟩
  | cons p t => exact ⟨_, appendQueryParams_ok_cons h⟩

/-! ### The object built by getAllQueryParams -/

theorem hasKey_eq_false_of_lookupKey_none {ps : List (String × String)} {x : String}
    (h : lookupKey ps x = none) : hasKey ps x = false := by
  cases hc : hasKey ps x with
  | false => rfl
  | true =>
    obtain ⟨w, hw⟩ := lookupKey_isSome_of_hasKey hc
    rw [hw] at h
    exact Option.noConfusion h

theorem countKey_eq_length_filter (l : List (String × String)) (k : String) :
    countKey l k = (l.filter (fun p => p.1 == k)).length := by
  rw [countKey, List.countP_eq_length_filter]

theorem hasKey_of_countKey_pos {l : List (String × String)} {k : String}
    (h : 1 ≤ countKey l k) : hasKey l k = true := by
  rw [countKey_eq_length_filter] at h
  cases hf : l.filter (fun p => p.1 == k) with
  | nil =>
    rw [hf] at h
    exact absurd h (by simp)
  | cons p t =>
    have hp : p ∈ l.filter (fun p => p.1 == k) := by
      rw [hf]
      exact List.mem_cons_self _ _
    have hmem := List.mem_of_mem_filter hp
    have hpk := List.of_mem_filter hp
    simp only [beq_iff_eq] at hpk
    rw [hasKey, List.any_eq_true]
    exact ⟨p, hmem, by simp [hpk]⟩

theorem dedupeUpdate_split_aux {ps : List (String × String)} {k v : String}
    (hsome : lookupKey ps k = some v) :
    ∀ n (pre : List (String × String)), pre.length ≤ n → hasKey pre k = false →
      ∀ (w : String) (post : List (String × String)),
        ∃ rest, dedupeUpdate ps (pre ++ (k, w) :: post) =
          dedupeUpdate ps pre ++ (k, v) :: rest := by
  intro n
  induction n with
  | zero =>
    intro pre hl _ w post
    rw [Nat.le_zero, List.length_eq_zero] at hl
    subst hl
    refine ⟨dedupeUpdate ps (post.filter (fun p => !(p.1 == k))), ?_⟩
    rw [List.nil_append]
    simp only [dedupeUpdate, hsome, List.nil_append]
  | succ n ih =>
    intro pre hl hk w post
    match pre with
    | [] =>
      refine ⟨dedupeUpdate ps (post.filter (fun p => !(p.1 == k))), ?_⟩
      rw [List.nil_append]
      simp only [dedupeUpdate, hsome, List.nil_append]
    | (k1, v1) :: pre2 =>
      rw [List.length_cons, Nat.succ_le_succ_iff] at hl
      rw [hasKey_cons, Bool.or_eq_false_iff] at hk
      obtain ⟨hk1, hk2⟩ := hk
      have hk1' : k1 ≠ k := by simpa using hk1
      rw [List.cons_append]
      cases hlk : lookupKey ps k1 with
      | some w1 =>
        have hfsplit : (pre2 ++ (k, w) :: post).filter (fun p => !(p.1 == k1)) =
            pre2.filter (fun p => !(p.1 == k1)) ++ (k, w) ::
              post.filter (fun p => !(p.1 == k1)) := by
          rw [List.filter_append, List.filter_cons]
          rw [if_pos (by simp; exact fun he => hk1' he.symm)]
        obtain ⟨rest, hrest⟩ := ih (pre2.filter (fun p => !(p.1 == k1)))
          (le_trans (List.length_filter_le _ _) hl)
          (hasKey_filter_false _ hk2) w (post.filter (fun p => !(p.1 == k1)))
        refine ⟨rest, ?_⟩
        simp only [dedupeUpdate, hlk]
        rw [hfsplit, hrest, List.cons_append]
      | none =>
        obtain ⟨rest, hrest⟩ := ih pre2 hl hk2 w post
        refine ⟨rest, ?_⟩
        simp only [dedupeUpdate, hlk]
        rw [hrest, List.cons_append]


/-! ## The claims -/

deriving instance DecidableEq for Except

/-- Core characterization of appendQueryParams on a parseable base URL:
the call succeeds, the result re-parses to a record with scheme, host, path
and fragment unchanged, and its search parameter list is the spec-described
merge; parameters whose key is not in params are preserved exactly. -/
theorem appendQueryParams_merge_core (baseUrl : String) (ps : List (String × String))
    (u : URLRec) (hu : parseURL baseUrl.data = some u) (hn : (keysOf ps).Nodup) :
    ∃ r u2, appendQueryParams baseUrl ps = Except.ok r ∧
      parseURL r.data = some u2 ∧
      u2.scheme = u.scheme ∧ u2.host = u.host ∧ u2.path = u.path ∧
      u2.fragment = u.fragment ∧
      urlSearchList u2 = mergeSpecList (urlSearchList u) ps ∧
      (∀ x, lookupKey ps x = none →
        (urlSearchList u2).filter (fun q => q.1 == x) =
          (urlSearchList u).filter (fun q => q.1 == x)) := by
  cases ps with
  | nil =>
    refine ⟨serializeURL u, u, appendQueryParams_ok_empty hu,
      parseURL_serializeURL (parseURL_wf hu), rfl, rfl, rfl, rfl, ?_, ?_⟩
    · rw [mergeSpecList_nil]
    · intro x _
      rfl
  | cons p t =>
    have hwf2 := wfURL_setQuery (parseURL_wf hu) (setAll (urlSearchList u) (p :: t))
    have hlist : urlSearchList { u with query := some (serializeQueryChars
        (setAll (urlSearchList u) (p :: t))) } = setAll (urlSearchList u) (p :: t) :=
      parseQueryChars_serializeQueryChars _
    refine ⟨_, _, appendQueryParams_ok_cons hu, parseURL_serializeURL hwf2,
      rfl, rfl, rfl, rfl, ?_, ?_⟩
    · rw [hlist, setAll_eq_mergeSpecList (p :: t) hn]
    · intro x hx
      rw [hlist, setAll_eq_mergeSpecList (p :: t) hn, mergeSpecList, List.filter_append]
      rw [filter_dedupeUpdate_of_none hx]
      have hA : (((p :: t).filter (fun q => !(hasKey (urlSearchList u) q.1))).filter
          (fun q => q.1 == x)) = [] :=
        filter_pos_eq_nil_of_not_hasKey
          (hasKey_filter_false _ (hasKey_eq_false_of_lookupKey_none hx))
      rw [hA, List.append_nil]

/-- C1: appendQueryParams sets every entry of params (overwriting, not
duplicating), preserves parameters of the base URL whose key is not in
params, and orders the result as the spec describes: pre-existing parameters
first in original order (updated in place when overwritten), then the new
parameters in params order. -/
theorem appendQueryParams_merges_params (baseUrl : String) (ps : List (String × String))
    (u : URLRec) (hu : parseURL baseUrl.data = some u) (hn : (keysOf ps).Nodup) :
    ∃ r u2, appendQueryParams baseUrl ps = Except.ok r ∧
      parseURL r.data = some u2 ∧
      u2.scheme = u.scheme ∧ u2.host = u.host ∧ u2.path = u.path ∧
      u2.fragment = u.fragment ∧
      urlSearchList u2 = mergeSpecList (urlSearchList u) ps ∧
      (∀ x, lookupKey ps x = none →
        (urlSearchList u2).filter (fun q => q.1 == x) =
          (urlSearchList u).filter (fun q => q.1 == x)) :=
  appendQueryParams_merge_core baseUrl ps u hu hn

theorem appendQueryParams_merges_params_witness :
    ∃ r u2, appendQueryParams "https://example.com?a=9" [("a", "1")] = Except.ok r ∧
      parseURL r.data = some u2 ∧
      u2.scheme = (⟨"https".data, "example.com".data, "/".data, some "a=9".data, none⟩ :
        URLRec).scheme ∧
      u2.host = (⟨"https".data, "example.com".data, "/".data, some "a=9".data, none⟩ :
        URLRec).host ∧
      u2.path = (⟨"https".data, "example.com".data, "/".data, some "a=9".data, none⟩ :
        URLRec).path ∧
      u2.fragment = (⟨"https".data, "example.com".data, "/".data, some "a=9".data, none⟩ :
        URLRec).fragment ∧
      urlSearchList u2 = mergeSpecList (urlSearchList
        ⟨"https".data, "example.com".data, "/".data, some "a=9".data, none⟩) [("a", "1")] ∧
      (∀ x, lookupKey [("a", "1")] x = none →
        (urlSearchList u2).filter (fun q => q.1 == x) =
          (urlSearchList
            ⟨"https".data, "example.com".data, "/".data, some "a=9".data, none⟩).filter
            (fun q => q.1 == x)) :=
  appendQueryParams_merges_params "https://example.com?a=9" [("a", "1")]
    ⟨"https".data, "example.com".data, "/".data, some "a=9".data, none⟩
    (by decide) (by decide)


/-- C4: setIframeSrcWithQuery rejects every non-iframe element with
TypeMismatchError "Provided element is not a valid iframe", and
generateLinkWithQuery rejects every non-anchor element with
TypeMismatchError "Provided element is not a valid anchor element"; in both
cases the element is left unchanged. -/
theorem element_type_checks :
    (∀ (el : DomElement) (url search : String), el.kind ≠ ElemKind.iframe →
      setIframeSrcWithQuery el url search =
        (some (QHError.typeMismatch "Provided element is not a valid iframe"), el)) ∧
    (∀ (el : DomElement) (url search : String), el.kind ≠ ElemKind.anchor →
      generateLinkWithQuery url el search =
        (some (QHError.typeMismatch "Provided element is not a valid anchor element"), el)) := by
  constructor
  · intro el url search hk
    rw [setIframeSrcWithQuery, if_neg hk]
  · intro el url search hk
    rw [generateLinkWithQuery, if_neg hk]

theorem element_type_checks_witness :
    setIframeSrcWithQuery ⟨ElemKind.anchor, "s", "h"⟩ "https://x.com" "" =
      (some (QHError.typeMismatch "Provided element is not a valid iframe"),
        ⟨ElemKind.anchor, "s", "h"⟩) ∧
    generateLinkWithQuery "https://x.com" ⟨ElemKind.iframe, "s", "h"⟩ "" =
      (some (QHError.typeMismatch "Provided element is not a valid anchor element"),
        ⟨ElemKind.iframe, "s", "h"⟩) :=
  ⟨element_type_checks.1 ⟨ElemKind.anchor, "s", "h"⟩ "https://x.com" "" (by decide),
    element_type_checks.2 ⟨ElemKind.iframe, "s", "h"⟩ "https://x.com" "" (by decide)⟩

/-- C5: whenever setIframeSrcWithQuery or generateLinkWithQuery raises an
error (type mismatch or invalid URL), the call performs no side effect: the
element after the call is the element that was passed in. -/
theorem no_side_effect_on_error :
    (∀ (el : DomElement) (url search : String) (e : QHError) (el2 : DomElement),
      setIframeSrcWithQuery el url search = (some e, el2) → el2 = el) ∧
    (∀ (el : DomElement) (url search : String) (e : QHError) (el2 : DomElement),
      generateLinkWithQuery url el search = (some e, el2) → el2 = el) := by
  constructor
  · intro el url search e el2 h
    rw [setIframeSrcWithQuery] at h
    by_cases hk : el.kind = ElemKind.iframe
    · rw [if_pos hk] at h
      cases ha : appendQueryParams url (getAllQueryParams search) with
      | error e2 =>
        rw [ha] at h
        rw [Prod.mk.injEq] at h
        exact h.2.symm
      | ok r =>
        rw [ha] at h
        rw [Prod.mk.injEq] at h
        exact absurd h.1 (by simp)
    · rw [if_neg hk] at h
      rw [Prod.mk.injEq] at h
      exact h.2.symm
  · intro el url search e el2 h
    rw [generateLinkWithQuery] at h
    by_cases hk : el.kind = ElemKind.anchor
    · rw [if_pos hk] at h
      cases ha : appendQueryParams url (getAllQueryParams search) with
      | error e2 =>
        rw [ha] at h
        rw [Prod.mk.injEq] at h
        exact h.2.symm
      | ok r =>
        rw [ha] at h
        rw [Prod.mk.injEq] at h
        exact absurd h.1 (by simp)
    · rw [if_neg hk] at h
      rw [Prod.mk.injEq] at h
      exact h.2.symm

theorem no_side_effect_on_error_witness :
    ((⟨ElemKind.other, "s", "h"⟩ : DomElement) = ⟨ElemKind.other, "s", "h"⟩) ∧
    ((⟨ElemKind.anchor, "s", "h"⟩ : DomElement) = ⟨ElemKind.anchor, "s", "h"⟩) :=
  ⟨no_side_effect_on_error.1 ⟨ElemKind.other, "s", "h"⟩ "https://x.com" ""
      (QHError.typeMismatch "Provided element is not a valid iframe")
      ⟨ElemKind.other, "s", "h"⟩ (by decide),
    no_side_effect_on_error.2 ⟨ElemKind.anchor, "s", "h"⟩ "notaurl" ""
      QHError.invalidUrl ⟨ElemKind.anchor, "s", "h"⟩ (by decide)⟩


/-- C6: the merge is idempotent: applying appendQueryParams a second time
with the same params to its own output returns the output unchanged. -/
theorem appendQueryParams_idem (url : String) (ps : List (String × String))
    (hn : (keysOf ps).Nodup) (r : String)
    (h : appendQueryParams url ps = Except.ok r) :
    appendQueryParams r ps = Except.ok r := by
  cases hp : parseURL url.data with
  | none =>
    rw [appendQueryParams_error ps hp] at h
    exact Except.noConfusion h
  | some u =>
    cases ps with
    | nil =>
      rw [appendQueryParams_ok_empty hp, Except.ok.injEq] at h
      subst h
      rw [appendQueryParams_ok_empty (parseURL_serializeURL (parseURL_wf hp))]
    | cons p t =>
      rw [appendQueryParams_ok_cons hp, Except.ok.injEq] at h
      subst h
      have hwf2 := wfURL_setQuery (parseURL_wf hp) (setAll (urlSearchList u) (p :: t))
      rw [appendQueryParams_ok_cons (parseURL_serializeURL hwf2)]
      have hlist : urlSearchList { u with query := some (serializeQueryChars
          (setAll (urlSearchList u) (p :: t))) } = setAll (urlSearchList u) (p :: t) :=
        parseQueryChars_serializeQueryChars _
      rw [hlist, setAll_idem hn]

theorem appendQueryParams_idem_witness :
    appendQueryParams "https://example.com/?a=1" [("a", "1")] =
      Except.ok "https://example.com/?a=1" :=
  appendQueryParams_idem "https://example.com?a=9" [("a", "1")] (by decide)
    "https://example.com/?a=1" (by decide)

/-- C7: an empty params mapping is an identity up to re-serialization: the
returned text is the serialization of the parsed base URL, which parses back
to the very same record (so the parameter content is unchanged); and the
spec's concrete example of the equivalent re-serialization holds. -/
theorem appendQueryParams_empty_params :
    (∀ (url : String) (u : URLRec), parseURL url.data = some u →
      appendQueryParams url [] = Except.ok (serializeURL u) ∧
      parseURL (serializeURL u).data = some u) ∧
    appendQueryParams "https://example.com" [("a", "1"), ("b", "2")] =
      Except.ok "https://example.com/?a=1&b=2" := by
  constructor
  · intro url u h
    exact ⟨appendQueryParams_ok_empty h, parseURL_serializeURL (parseURL_wf h)⟩
  · decide

theorem appendQueryParams_empty_params_witness :
    appendQueryParams "https://x.com" [] = Except.ok (serializeURL
      ⟨"https".data, "x.com".data, "/".data, none, none⟩) ∧
    parseURL (serializeURL (⟨"https".data, "x.com".data, "/".data, none, none⟩ :
      URLRec)).data = some ⟨"https".data, "x.com".data, "/".data, none, none⟩ :=
  appendQueryParams_empty_params.1 "https://x.com"
    ⟨"https".data, "x.com".data, "/".data, none, none⟩ (by decide)

/-- C8: with a valid anchor and a valid base URL, generateLinkWithQuery
raises nothing and sets the anchor's href to the merge of the current
query parameters into the base URL; in particular with base https://x.com
and search ?id=5 the href becomes https://x.com/?id=5. -/
theorem generateLinkWithQuery_spec :
    (∀ (el : DomElement) (base search : String) (u : URLRec),
      el.kind = ElemKind.anchor → parseURL base.data = some u →
      ∃ r, appendQueryParams base (getAllQueryParams search) = Except.ok r ∧
        generateLinkWithQuery base el search = (none, { el with href := r })) ∧
    (∀ s0 h0 : String,
      generateLinkWithQuery "https://x.com" ⟨ElemKind.anchor, s0, h0⟩ "?id=5" =
        (none, ⟨ElemKind.anchor, s0, "https://x.com/?id=5"⟩)) := by
  constructor
  · intro el base search u hk hu
    obtain ⟨r, hr⟩ := appendQueryParams_isOk hu (getAllQueryParams search)
    refine ⟨r, hr, ?_⟩
    rw [generateLinkWithQuery, if_pos hk, hr]
  · intro s0 h0
    rw [generateLinkWithQuery, if_pos rfl]
    rw [show appendQueryParams "https://x.com" (getAllQueryParams "?id=5") =
      Except.ok "https://x.com/?id=5" from by decide]

theorem generateLinkWithQuery_spec_witness :
    ∃ r, appendQueryParams "https://x.com" (getAllQueryParams "?id=5") = Except.ok r ∧
      generateLinkWithQuery "https://x.com" ⟨ElemKind.anchor, "", ""⟩ "?id=5" =
        (none, { (⟨ElemKind.anchor, "", ""⟩ : DomElement) with href := r }) :=
  generateLinkWithQuery_spec.1 ⟨ElemKind.anchor, "", ""⟩ "https://x.com" "?id=5"
    ⟨"https".data, "x.com".data, "/".data, none, none⟩ rfl (by decide)

/-- C10: when the base URL's query holds a key several times and params
overrides that key, the merge collapses all its occurrences into a single
entry carrying the params value, placed where the first occurrence stood
(the set semantics of the underlying URL API): the result is the
characterized merge, the key's entries reduce to exactly one, and splitting
the base list at the first occurrence shows the collapsed entry sitting
right after the merged prefix. -/
theorem appendQueryParams_duplicate_collapse (baseUrl : String)
    (ps : List (String × String)) (u : URLRec) (k v : String)
    (hu : parseURL baseUrl.data = some u) (hn : (keysOf ps).Nodup)
    (hk : lookupKey ps k = some v) (hdup : 2 ≤ countKey (urlSearchList u) k) :
    ∃ r u2, appendQueryParams baseUrl ps = Except.ok r ∧
      parseURL r.data = some u2 ∧
      urlSearchList u2 = mergeSpecList (urlSearchList u) ps ∧
      (urlSearchList u2).filter (fun q => q.1 == k) = [(k, v)] ∧
      countKey (urlSearchList u2) k = 1 ∧
      (∀ pre w post, urlSearchList u = pre ++ (k, w) :: post → hasKey pre k = false →
        ∃ rest, urlSearchList u2 = dedupeUpdate ps pre ++ (k, v) :: rest) := by
  obtain ⟨r, u2, h1, h2, _, _, _, _, h7, _⟩ :=
    appendQueryParams_merge_core baseUrl ps u hu hn
  have hbase : hasKey (urlSearchList u) k = true :=
    hasKey_of_countKey_pos (le_trans (by omega) hdup)
  have hfilter : (urlSearchList u2).filter (fun q => q.1 == k) = [(k, v)] := by
    rw [h7, mergeSpecList, List.filter_append, filter_dedupeUpdate_of_some hk,
      if_pos hbase]
    have hA : ((ps.filter (fun q => !(hasKey (urlSearchList u) q.1))).filter
        (fun q => q.1 == k)) = [] := by
      rw [List.filter_eq_nil_iff]
      intro q hq
      rcases List.mem_filter.mp hq with ⟨_, hq2⟩
      intro hqk
      rw [show q.1 = k from by simpa using hqk] at hq2
      rw [hbase] at hq2
      exact absurd hq2 (by simp)
    rw [hA, List.append_nil]
  refine ⟨r, u2, h1, h2, h7, hfilter, ?_, ?_⟩
  · rw [countKey_eq_length_filter, hfilter]
    rfl
  · intro pre w post hsplit hpre
    obtain ⟨rest0, hrest0⟩ :=
      dedupeUpdate_split_aux hk pre.length pre le_rfl hpre w post
    refine ⟨rest0 ++ ps.filter (fun q => !(hasKey (urlSearchList u) q.1)), ?_⟩
    rw [h7, mergeSpecList, hsplit, hrest0]
    rw [List.append_assoc, List.cons_append]

theorem appendQueryParams_duplicate_collapse_witness :
    ∃ r u2, appendQueryParams "https://example.com?a=1&b=2&a=3" [("a", "9")] =
        Except.ok r ∧
      parseURL r.data = some u2 ∧
      urlSearchList u2 = mergeSpecList (urlSearchList
        ⟨"https".data, "example.com".data, "/".data, some "a=1&b=2&a=3".data, none⟩)
        [("a", "9")] ∧
      (urlSearchList u2).filter (fun q => q.1 == "a") = [("a", "9")] ∧
      countKey (urlSearchList u2) "a" = 1 ∧
      (∀ pre w post, urlSearchList
          (⟨"https".data, "example.com".data, "/".data, some "a=1&b=2&a=3".data, none⟩ :
            URLRec) = pre ++ ("a", w) :: post → hasKey pre "a" = false →
        ∃ rest, urlSearchList u2 = dedupeUpdate [("a", "9")] pre ++ ("a", "9") :: rest) :=
  appendQueryParams_duplicate_collapse "https://example.com?a=1&b=2&a=3" [("a", "9")]
    ⟨"https".data, "example.com".data, "/".data, some "a=1&b=2&a=3".data, none⟩
    "a" "9" (by decide) (by decide) (by decide) (by decide)

end QueryHandler
